import Mathlib

/-!
Verification development for the UO OWL extraction and matching script
(`scripts/uo_owl_extract.py`) of the units-of-measurement repository.

Strings are embedded as `List Char` (`Str`); each Python string helper is
translated into an executable Lean function over `Str`.  Python's `\s`
whitespace class, `str.strip`, `str.replace`, `str.lower` (ASCII range, the
inputs of interest are ASCII), the `in` substring test and the regexes of the
script are all given explicit recursive definitions.
-/

/-- Strings of the embedding: lists of characters. -/
abbrev Str := List Char

/-- Coerce a Lean string literal into the embedding's string type. -/
def str (s : String) : Str := s.toList

/-- Python's whitespace class `\s` (ASCII range): space, tab, newline,
carriage return, vertical tab, form feed. -/
def isPyWs (c : Char) : Bool :=
  c = ' ' || c = '\t' || c = '\n' || c = '\r' || c = '\x0b' || c = '\x0c'

/-- ASCII uppercase letter test (regex `[A-Z]`). -/
def isUpperAZ (c : Char) : Bool := 'A' ≤ c && c ≤ 'Z'

/-- ASCII lowercase letter test (regex `[a-z]`). -/
def isLowerAZ (c : Char) : Bool := 'a' ≤ c && c ≤ 'z'

/-- ASCII letter test (Python `str.isalpha`, restricted to the ASCII range
used by the data). -/
def isAsciiAlpha (c : Char) : Bool := isUpperAZ c || isLowerAZ c

/-- ASCII digit test (regex `[0-9]`). -/
def isDigitChar (c : Char) : Bool := '0' ≤ c && c ≤ '9'

/-- Python `str.lower`, restricted to the ASCII range. -/
def pyLowerChar (c : Char) : Char :=
  if isUpperAZ c then Char.ofNat (c.toNat + 32) else c

/-- Lowercase a string (Python `text.lower()`, ASCII range). -/
def pyLower (l : Str) : Str := l.map pyLowerChar

/-- Remove a maximal all-whitespace suffix (the right half of `str.strip`). -/
def rdropWs : Str → Str
  | [] => []
  | c :: cs =>
    let r := rdropWs cs
    if r = [] ∧ isPyWs c then [] else c :: r

/-- Python `text.strip()`: drop leading and trailing whitespace. -/
def pyStrip (l : Str) : Str := rdropWs (l.dropWhile isPyWs)

/-- Helper of `collapseWs`: the flag records that the current position is
inside a whitespace run whose single replacement space was already emitted. -/
def collapseWsAux : Bool → Str → Str
  | _, [] => []
  | inRun, c :: cs =>
    if isPyWs c then
      if inRun then collapseWsAux true cs else ' ' :: collapseWsAux true cs
    else c :: collapseWsAux false cs

/-- Replace every maximal whitespace run by a single space
(regex `re.sub(r"\s+", " ", text)`). -/
def collapseWs (l : Str) : Str := collapseWsAux false l

/-- Helper of `stripAround`: delete every whitespace character that follows an
occurrence of `tc` (possibly through further whitespace).  The flag records
that the scan is inside such a run. -/
def rmWsAfter (tc : Char) : Bool → Str → Str
  | _, [] => []
  | flag, c :: cs =>
    if c = tc then c :: rmWsAfter tc true cs
    else if flag && isPyWs c then rmWsAfter tc true cs
    else c :: rmWsAfter tc false cs

/-- Delete the whitespace immediately surrounding every occurrence of the
character `tc` (regex `re.sub(r"\s*T\s*", "T", text)` for a one-character
target `T`): one pass over the reversal removes the whitespace before each
occurrence, a second pass removes the whitespace after. -/
def stripAround (tc : Char) (l : Str) : Str :=
  rmWsAfter tc false ((rmWsAfter tc false l.reverse).reverse)

/-- Is `pat` a prefix of the second list? -/
def pfxOf : Str → Str → Bool
  | [], _ => true
  | _ :: _, [] => false
  | a :: as, b :: bs => a = b && pfxOf as bs

/-- Python's substring test `sub in s` (contiguous substring). -/
def substrOf (sub : Str) : Str → Bool
  | [] => sub.isEmpty
  | c :: cs => pfxOf sub (c :: cs) || substrOf sub cs

/-- Helper of `pyReplace`, structurally recursive on a fuel bounded below by
the length of the scanned string; the fuel never runs out because a match
consumes at least one character of a non-empty pattern. -/
def pyReplaceAux (pat rep : Str) : Nat → Str → Str
  | 0, s => s
  | fuel + 1, s =>
    match s with
    | [] => []
    | c :: cs =>
      if pat ≠ [] ∧ pfxOf pat (c :: cs) then
        rep ++ pyReplaceAux pat rep fuel ((c :: cs).drop pat.length)
      else c :: pyReplaceAux pat rep fuel cs

/-- Python `s.replace(pat, rep)`: replace all non-overlapping occurrences of
`pat`, scanning left to right, without rescanning the replacement.  (Python's
behaviour for an empty `pat` differs, but no call site passes one.) -/
def pyReplace (s pat rep : Str) : Str := pyReplaceAux pat rep s.length s

/-- Add an element to a list acting as a set (Python `set.add`): append it
only when not already present. -/
def setAdd (l : List Str) (x : Str) : List Str :=
  if x ∈ l then l else l ++ [x]

/-- Concatenation of the images of `f` over a list, in order. -/
def cmap {α β : Type} (f : α → List β) : List α → List β
  | [] => []
  | a :: l => f a ++ cmap f l

/-- Maximal runs of lowercase ASCII letters, accumulator-based helper. -/
def lowerRunsAux : Str → Str → List Str
  | acc, [] => if acc = [] then [] else [acc.reverse]
  | acc, c :: cs =>
    if isLowerAZ c then lowerRunsAux (c :: acc) cs
    else if acc = [] then lowerRunsAux [] cs
    else acc.reverse :: lowerRunsAux [] cs

/-- Maximal runs of lowercase ASCII letters in a string. -/
def lowerRuns (l : Str) : List Str := lowerRunsAux [] l

/-- `re.findall(r"[a-z]{3,}", text)`: maximal lowercase-letter runs of length
at least three. -/
def wordsOf (l : Str) : List Str := (lowerRuns l).filter (fun w => 3 ≤ w.length)

/-- Strict lexicographic order on strings (used only to state claims about
"smaller uri"). -/
def strLt : Str → Str → Bool
  | [], [] => false
  | [], _ :: _ => true
  | _ :: _, [] => false
  | a :: as, b :: bs => a < b || (a = b && strLt as bs)

/-!
Data model (`uo_owl_extract.py`, Part 1): an extracted UO entry and a dataset
record.  `label` and `definition` are optional (the script initialises them to
`None`); synonym lists keep their source order.
-/

/-- A UO ontology entry as produced by `extract_uo_entry`/`merge_entry`. -/
structure Entity where
  uri : Str
  id : Str
  label : Option Str
  definition : Option Str
  exact_synonyms : List Str
  related_synonyms : List Str
  narrow_synonyms : List Str
  deprecated : Bool
  parent_classes : List Str
deriving DecidableEq, Repr

/-- A dataset record (`units_of_measurement.jsonl` line).  Every field is
optional, mirroring `record.get(...)` with defaults in `match_dataset`. -/
structure Record where
  unit : Option Str
  symbol : Option Str
  plural : Option Str
  canonical_unit : Option Str
  alternate_unit : Option (List Str)
  property : Option Str
  quantity : Option Str
  system : Option Str
deriving DecidableEq, Repr

/-- One entry of the `all_matches` audit list of a match result. -/
structure Audit where
  method : Str
  uo_uri : Str
  uo_id : Str
  uo_label : Option Str
  alternate_unit : Option Str := none
  variant : Option Str := none
deriving DecidableEq, Repr

/-- The per-record result dictionary built by `match_dataset`. -/
structure MatchInfo where
  unit : Str
  symbol : Str
  property : Str
  quantity : Str
  system : Str
  matched : Bool
  match_method : Option Str
  match_uo_uri : Option Str
  match_uo_label : Option Str
  match_uo_id : Option Str
  all_matches : List Audit
deriving DecidableEq, Repr

/-- Lookup maps: association lists from a key to its candidate bucket,
modelling the script's `defaultdict(list)` name and symbol maps. -/
abbrev LookupMap := List (Str × List (Entity × Str))

/-- Bucket lookup; an absent key yields the empty bucket (the script only
tests `key in map` and then reads a bucket that is never empty). -/
def findB (m : LookupMap) (k : Str) : List (Entity × Str) :=
  match m with
  | [] => []
  | (k', vs) :: rest => if k' = k then vs else findB rest k

/-- Append a value to the bucket of `k`, creating the bucket if absent
(`defaultdict(list)[k].append(v)`). -/
def bucketAdd (m : LookupMap) (k : Str) (v : Entity × Str) : LookupMap :=
  match m with
  | [] => [(k, [v])]
  | (k', vs) :: rest =>
    if k' = k then (k', vs ++ [v]) :: rest else (k', vs) :: bucketAdd rest k v

/-!
Matching-logic constants and predicates (`uo_owl_extract.py`, Part 3).
-/

/-- `CATEGORY_LABELS`: labels of category/type entries excluded from
matching. -/
def CATEGORY_LABELS : List Str := [str "unit", str "base unit", str "prefix"]

/-- The alternatives of `PREFIX_LABEL_RE`: SI-prefix words whose entries are
excluded from matching.  The regex is case-insensitive and fully anchored; it
is only ever applied to an already-lowercased normalized label, so membership
in this lowercase list is an exact translation. -/
def PREFIX_LABEL_LIST : List Str :=
  [str "yotta", str "zetta", str "exa", str "peta", str "tera", str "giga",
   str "mega", str "kilo", str "hecto", str "deca", str "deka", str "deci",
   str "centi", str "milli", str "micro", str "nano", str "pico",
   str "femto", str "atto", str "zepto", str "yocto"]

/-- `SINGLE_CHAR_PREFIX_SYMBOLS = set("YZEPTGMkhdcmnfazy")`. -/
def SINGLE_CHAR_PREFIX_SYMBOLS : List Char :=
  ['Y', 'Z', 'E', 'P', 'T', 'G', 'M', 'k', 'h', 'd', 'c', 'm', 'n', 'f',
   'a', 'z', 'y']

/-- `POWER_SYNONYMS_RE = r"^10\^\[[-]?\d+\]$"`: power-of-ten synonyms such as
`10^[3]` or `10^[-15]`. -/
def isPowerSyn (l : Str) : Bool :=
  match l with
  | '1' :: '0' :: '^' :: '[' :: rest =>
    let ds := if rest.head? = some '-' then rest.tail else rest
    2 ≤ ds.length && ds.dropLast.all isDigitChar && ds.getLast? = some ']'
  | _ => false

/-- The character class `[/\^µ°Ω²³]` of `is_symbol_like`. -/
def isSpecialSymChar (c : Char) : Bool :=
  c = '/' || c = '^' || c = 'µ' || c = '°' || c = 'Ω' || c = '²' || c = '³'

/-- Python `stripped.isalpha()` (ASCII range). -/
def pyIsAlpha (l : Str) : Bool := !l.isEmpty && l.all isAsciiAlpha

/-- Python `stripped.islower()` (ASCII range): at least one cased character
and no uppercase one. -/
def pyIsLower (l : Str) : Bool := l.any isAsciiAlpha && !l.any isUpperAZ

/-- `is_symbol_like(text)`: is this synonym likely a symbol/abbreviation
rather than a word-based name? -/
def is_symbol_like (text : Str) : Bool :=
  if text = [] then false else
  let stripped := pyStrip text
  if stripped.any (fun c => c = ' ') then false
  else if 15 < stripped.length then false
  else if stripped.any isSpecialSymChar then true
  else if stripped.any isUpperAZ && stripped.length ≤ 10 then true
  else if stripped.length ≤ 5 && pyIsAlpha stripped && pyIsLower stripped then true
  else false

/-- `normalize_name(text)`: lowercase, strip, map the separators `·`, `*`,
`_` to spaces, collapse whitespace runs. -/
def normalize_name (t : Str) : Str :=
  if t = [] then [] else
  let t1 := pyStrip (pyLower t)
  let t2 := t1.map (fun c => if c = '·' || c = '*' || c = '_' then ' ' else c)
  collapseWs t2

/-- `normalize_symbol_for_match(text)`: case-sensitive symbol normalization —
strip, delete spaces around `·`, `/`, `^`, collapse remaining whitespace. -/
def normalize_symbol_for_match (t : Str) : Str :=
  if t = [] then [] else
  collapseWs (stripAround '^' (stripAround '/' (stripAround '·' (pyStrip t))))

/-!
`symbol_match_is_plausible(dataset_unit_name, uo_entry)` — the plausibility
filter for symbol matches.  The local variables of the source function
(`uo_label`, `unit_words`, `all_uo_text`, `uo_words_extended`) become named
definitions.  (The source also computes `uo_words` from the label alone, but
never uses it.)  The Lean name drops the source's `is_` particle.
-/

/-- `all_uo_text`: the lowercased label followed by every exact and related
synonym, space-separated. -/
def allUoText (e : Entity) : Str :=
  (e.related_synonyms.foldl (fun acc syn => acc ++ ' ' :: pyLower syn)
    (e.exact_synonyms.foldl (fun acc syn => acc ++ ' ' :: pyLower syn)
      (pyLower (e.label.getD []))))

/-- `uo_words_extended`: word tokens of the label plus exact/related
synonyms. -/
def uoWordsExtended (e : Entity) : List Str := wordsOf (allUoText e)

/-- `symbol_match_is_plausible`: cross-check a symbol hit against the record's
unit name to reject coincidental symbol collisions. -/
def symbol_match_plausibility (datasetUnitName : Str) (e : Entity) : Bool :=
  let uoLabel := pyLower (e.label.getD [])
  let unitLower := pyLower datasetUnitName
  let unitWords := wordsOf unitLower
  -- Quick check: do the names share a substantial word?
  if unitWords.any (fun w => (uoWordsExtended e).any (fun w2 => w2 = w)) then
    true
  -- One name a substring of the other?
  else if substrOf uoLabel unitLower || substrOf unitLower uoLabel then true
  -- A word from either side a substring of a word on the other?
  else if unitWords.any (fun uw => (uoWordsExtended e).any (fun ow =>
      3 ≤ uw.length && 3 ≤ ow.length && (substrOf uw ow || substrOf ow uw)))
    then true
  -- A long word of the unit name inside the definition?
  else
    (wordsOf unitLower).any (fun uw =>
      4 ≤ uw.length && substrOf uw (pyLower (e.definition.getD [])))

/-!
`generate_spelling_variants(text)` and the decomposition helpers.  Python's
`set` becomes an insertion-ordered duplicate-free list (`setAdd`); only
membership is relied upon downstream for the claims settled here.
-/

/-- The swap table built at the top of `generate_spelling_variants`, including
the guarded `gram`/`gramme` pairs. -/
def swapsFor (text : Str) : List (Str × Str) :=
  [(str "meter", str "metre"), (str "metre", str "meter"),
   (str "liter", str "litre"), (str "litre", str "liter"),
   (str "deca", str "deka"), (str "deka", str "deca")] ++
  (if substrOf (str "gram") text && !substrOf (str "gramme") text &&
      !substrOf (str "program") text
   then [(str "gram", str "gramme")] else []) ++
  (if substrOf (str "gramme") text then [(str "gramme", str "gram")] else [])

/-- Apply every applicable swap of `swaps` to `t`, accumulating results as a
set. -/
def applySwaps (swaps : List (Str × Str)) (t : Str) (acc : List Str) :
    List Str :=
  swaps.foldl
    (fun acc2 sw =>
      if substrOf sw.1 t then setAdd acc2 (pyReplace t sw.1 sw.2) else acc2)
    acc

/-- `generate_spelling_variants(text)`: American/British spelling variants,
two substitution passes, original excluded. -/
def generate_spelling_variants (text : Str) : List Str :=
  let swaps := swapsFor text
  let variants := applySwaps swaps text []
  let secondLevel := variants.foldl (fun acc v => applySwaps swaps v acc) []
  let variants2 := secondLevel.foldl setAdd variants
  variants2.filter (fun v => v ≠ text)

/-- Scan a list of candidate keys and return the first whose bucket in the
map is non-empty, together with that bucket's head and tail.  This is the
common `for v in ...: if v in name_map: return name_map[v][0] ...` shape of
the three `try_*` helpers. -/
def firstHit (nm : LookupMap) : List Str → Option (Str × (Entity × Str) × List (Entity × Str))
  | [] => none
  | v :: vs =>
    match findB nm v with
    | [] => firstHit nm vs
    | p :: ps => some (v, p, ps)

/-- `try_spelling_variant_match(text, name_map)`. -/
def try_spelling_variant_match (nm : LookupMap) (text : Str) :
    Option (Entity × Str × Str × List (Entity × Str)) :=
  match firstHit nm (generate_spelling_variants text) with
  | none => none
  | some (v, p, ps) => some (p.1, str "spelling_variant_" ++ p.2, v, p :: ps)

/-- Split at the first whitespace-delimited `per`, with non-empty parts
(regex `^(.+?)\s+per\s+(.+)$`; the function is applied to normalized text, in
which every whitespace run is a single space). -/
def splitPerAux (acc : Str) : Str → Option (Str × Str)
  | [] => none
  | c :: cs =>
    if acc ≠ [] ∧ pfxOf (str " per ") (c :: cs) ∧ (c :: cs).drop 5 ≠ [] then
      some (acc.reverse, (c :: cs).drop 5)
    else splitPerAux (c :: acc) cs

/-- The `per_match` regex of `try_per_decomposition_match`, with the
`.strip()` of both groups. -/
def splitPer (t : Str) : Option (Str × Str) :=
  (splitPerAux [] t).map (fun nd => (pyStrip nd.1, pyStrip nd.2))

/-- The candidate recombinations `f"{nv} per {dv}"` tried by
`try_per_decomposition_match`, in loop order, skipping the original text. -/
def perCandidates (t num den : Str) : List Str :=
  let nvs := num :: generate_spelling_variants num
  let dvs := den :: generate_spelling_variants den
  cmap (fun nv => dvs.filterMap (fun dv =>
    let full := nv ++ str " per " ++ dv
    if full = t then none else some full)) nvs

/-- `try_per_decomposition_match(text, name_map)`. -/
def try_per_decomposition_match (nm : LookupMap) (t : Str) :
    Option (Entity × Str × Str × List (Entity × Str)) :=
  match splitPer t with
  | none => none
  | some nd =>
    match firstHit nm (perCandidates t nd.1 nd.2) with
    | none => none
    | some (v, p, ps) => some (p.1, str "per_variant_" ++ p.2, v, p :: ps)

/-- One shape prefix ("square" or "cubic") of `try_shape_variant_match`:
match `^{shape}\s+(.+)$` against the (normalized) text and probe the spelling
variants of the remainder, reattaching the shape word. -/
def shapeTry (nm : LookupMap) (sh : Str) (t : Str) :
    Option (Entity × Str × Str × List (Entity × Str)) :=
  let pre := sh ++ [' ']
  if pfxOf pre t && t.drop pre.length ≠ [] then
    match firstHit nm
        ((generate_spelling_variants (t.drop pre.length)).map
          (fun v => pre ++ v)) with
    | none => none
    | some (v, p, ps) => some (p.1, sh ++ str "_variant_" ++ p.2, v, p :: ps)
  else none

/-- `try_shape_variant_match(text, name_map)`: "square" first, then
"cubic". -/
def try_shape_variant_match (nm : LookupMap) (t : Str) :
    Option (Entity × Str × Str × List (Entity × Str)) :=
  match shapeTry nm (str "square") t with
  | some r => some r
  | none => shapeTry nm (str "cubic") t

/-!
`build_uo_lookup(uo_entries)` — the name and symbol indices.  The source
walks each entity once, interleaving appends to the two independent maps; the
embedding factors the walk into the per-entity contribution lists
`entryNamePairs`/`entrySymPairs` (the appends to the two maps never interact,
so the split is behaviour-preserving) and folds them into the maps in the
same order.
-/

/-- The exclusion test applied to each entity at the top of the loop of
`build_uo_lookup`: deprecated entities, bare category labels, SI-prefix
labels. -/
def excludedB (e : Entity) : Bool :=
  let nl := normalize_name (e.label.getD [])
  e.deprecated || CATEGORY_LABELS.any (fun c => c = nl) ||
    PREFIX_LABEL_LIST.any (fun c => c = nl)

/-- The name-map contribution of one synonym: strip, skip empty and
power-of-ten synonyms, normalize, skip empty normal forms. -/
def nameSynPair (e : Entity) (tag syn : Str) :
    Option (Str × (Entity × Str)) :=
  let s := pyStrip syn
  if s = [] then none
  else if isPowerSyn s then none
  else
    let n := normalize_name s
    if n = [] then none else some (n, (e, tag))

/-- The symbol-map contribution of one synonym: strip, skip empty and
power-of-ten synonyms, keep only symbol-like strings that are not
single-character ambiguous prefix letters, key by the case-sensitive symbol
normal form. -/
def symPairOf (e : Entity) (tag syn : Str) :
    Option (Str × (Entity × Str)) :=
  let s := pyStrip syn
  if s = [] then none
  else if isPowerSyn s then none
  else if is_symbol_like s then
    if s.length = 1 && s.any (fun c => SINGLE_CHAR_PREFIX_SYMBOLS.any (fun a => a = c)) then
      none
    else
      let sn := normalize_symbol_for_match s
      if sn = [] then none else some (sn, (e, tag ++ str "_as_symbol"))
  else none

/-- All name-map contributions of an entity, in source append order: the
normalized label first, then exact, related and narrow synonyms. -/
def entryNamePairs (e : Entity) : List (Str × (Entity × Str)) :=
  if excludedB e then [] else
  let nl := normalize_name (e.label.getD [])
  (if nl = [] then [] else [(nl, (e, str "label"))]) ++
  e.exact_synonyms.filterMap (nameSynPair e (str "exact_synonym")) ++
  e.related_synonyms.filterMap (nameSynPair e (str "related_synonym")) ++
  e.narrow_synonyms.filterMap (nameSynPair e (str "narrow_synonym"))

/-- All symbol-map contributions of an entity, in source append order. -/
def entrySymPairs (e : Entity) : List (Str × (Entity × Str)) :=
  if excludedB e then [] else
  e.exact_synonyms.filterMap (symPairOf e (str "exact_synonym")) ++
  e.related_synonyms.filterMap (symPairOf e (str "related_synonym")) ++
  e.narrow_synonyms.filterMap (symPairOf e (str "narrow_synonym"))

/-- Fold the contributions of every entity into a lookup map, in entity
order. -/
def buildMap (f : Entity → List (Str × (Entity × Str)))
    (entries : List Entity) : LookupMap :=
  entries.foldl
    (fun m e => (f e).foldl (fun m2 kv => bucketAdd m2 kv.1 kv.2) m) []

/-- `build_uo_lookup(uo_entries)`: the name map and the symbol map. -/
def build_uo_lookup (entries : List Entity) : LookupMap × LookupMap :=
  (buildMap entryNamePairs entries, buildMap entrySymPairs entries)

/-!
`match_dataset` — the per-record strategy cascade.  Each strategy returns
`none` (no input, or no hit) or `some (method, chosen entity, audit list)`;
the cascade takes the first `some`, exactly as the `if not best` chain of the
source.  The audit entries are appended only by the winning strategy in the
source as well, since every strategy block is guarded by `if not best`.
-/

/-- A winning strategy's output: method tag, chosen entity, audit entries. -/
abbrev StratResult := Str × Entity × List Audit

/-- Build one `all_matches` entry. -/
def mkAudit (m : Str) (e : Entity) : Audit :=
  { method := m, uo_uri := e.uri, uo_id := e.id, uo_label := e.label }

/-- Strategy 1: normalized unit name against the name map, label provenance
preferred over synonym provenance. -/
def strat1 (nm : LookupMap) (r : Record) : Option StratResult :=
  let normUnit := normalize_name (r.unit.getD [])
  if normUnit = [] then none else
  match findB nm normUnit with
  | [] => none
  | p :: ps =>
    let pairs := p :: ps
    let auds := pairs.map (fun q => mkAudit (str "unit_name_to_" ++ q.2) q.1)
    match pairs.filter (fun q => q.2 = str "label") with
    | lp :: _ => some (str "unit_name_to_label", lp.1, auds)
    | [] => some (str "unit_name_to_" ++ p.2, p.1, auds)

/-- Strategy 2: case-sensitive symbol against the symbol map, filtered by the
plausibility check against the record's unit name. -/
def strat2 (sm : LookupMap) (r : Record) : Option StratResult :=
  let unitName := r.unit.getD []
  let symbol := r.symbol.getD []
  if symbol = [] then none else
  let symNorm := normalize_symbol_for_match symbol
  if symNorm = [] then none else
  match (findB sm symNorm).filter
      (fun q => symbol_match_plausibility unitName q.1) with
  | [] => none
  | q :: qs =>
    some (str "symbol_to_synonym", q.1,
      (q :: qs).map (fun p => mkAudit (str "symbol_to_" ++ p.2) p.1))

/-- Strategy 3: normalized plural against the name map. -/
def strat3 (nm : LookupMap) (r : Record) : Option StratResult :=
  let plural := r.plural.getD []
  if plural = [] then none else
  let np := normalize_name plural
  if np = [] then none else
  match findB nm np with
  | [] => none
  | p :: ps =>
    some (str "plural_to_uo", p.1,
      (p :: ps).map (fun q => mkAudit (str "plural_to_" ++ q.2) q.1))

/-- The loop of strategy 4 over the alternate units. -/
def strat4go (nm : LookupMap) : List Str → Option StratResult
  | [] => none
  | alt :: rest =>
    let na := normalize_name alt
    if na = [] then strat4go nm rest else
    match findB nm na with
    | [] => strat4go nm rest
    | p :: ps =>
      some (str "alternate_unit_to_uo", p.1,
        (p :: ps).map (fun q =>
          { mkAudit (str "alternate_unit_to_" ++ q.2) q.1 with
            alternate_unit := some alt }))

/-- Strategy 4: each alternate unit, in list order, against the name map. -/
def strat4 (nm : LookupMap) (r : Record) : Option StratResult :=
  strat4go nm (r.alternate_unit.getD [])

/-- Strategy 5: normalized canonical unit against the name map, only when it
differs from the normalized unit name. -/
def strat5 (nm : LookupMap) (r : Record) : Option StratResult :=
  let canonical := r.canonical_unit.getD []
  if canonical = [] then none else
  let nc := normalize_name canonical
  let nu := normalize_name (r.unit.getD [])
  if nc = [] then none else
  if nc = nu then none else
  match findB nm nc with
  | [] => none
  | p :: ps =>
    some (str "canonical_unit_to_uo", p.1,
      (p :: ps).map (fun q => mkAudit (str "canonical_unit_to_" ++ q.2) q.1))

/-- Strategy 6: spelling variants of the normalized unit name. -/
def strat6 (nm : LookupMap) (r : Record) : Option StratResult :=
  let nu := normalize_name (r.unit.getD [])
  if nu = [] then none else
  match try_spelling_variant_match nm nu with
  | none => none
  | some (e, _, v, pairs) =>
    some (str "spelling_variant", e,
      pairs.map (fun q =>
        { mkAudit (str "spelling_variant_" ++ q.2) q.1 with variant := some v }))

/-- Strategy 7: per-decomposition with spelling variants.  The audit entries
all carry the method string derived from the bucket head, as in the source. -/
def strat7 (nm : LookupMap) (r : Record) : Option StratResult :=
  let nu := normalize_name (r.unit.getD [])
  if nu = [] then none else
  match try_per_decomposition_match nm nu with
  | none => none
  | some (e, m, v, pairs) =>
    some (str "per_variant", e,
      pairs.map (fun q => { mkAudit m q.1 with variant := some v }))

/-- Strategy 8: square/cubic decomposition with spelling variants. -/
def strat8 (nm : LookupMap) (r : Record) : Option StratResult :=
  let nu := normalize_name (r.unit.getD [])
  if nu = [] then none else
  match try_shape_variant_match nm nu with
  | none => none
  | some (e, m, v, pairs) =>
    some (str "shape_variant", e,
      pairs.map (fun q => { mkAudit m q.1 with variant := some v }))

/-- The loop of strategy 9 over the alternate units. -/
def strat9go (nm : LookupMap) : List Str → Option StratResult
  | [] => none
  | alt :: rest =>
    let na := normalize_name alt
    if na = [] then strat9go nm rest else
    match try_spelling_variant_match nm na with
    | none => strat9go nm rest
    | some (e, _, v, pairs) =>
      some (str "alternate_spelling_variant", e,
        pairs.map (fun q =>
          { mkAudit (str "alternate_spelling_variant_" ++ q.2) q.1 with
            alternate_unit := some alt, variant := some v }))

/-- Strategy 9: spelling variants of each alternate unit, in list order. -/
def strat9 (nm : LookupMap) (r : Record) : Option StratResult :=
  strat9go nm (r.alternate_unit.getD [])

/-- The strategy cascade of `match_dataset`: the first strategy producing a
result wins, later strategies are skipped. -/
def runStrategies (nm sm : LookupMap) (r : Record) : Option StratResult :=
  match strat1 nm r with
  | some res => some res
  | none =>
  match strat2 sm r with
  | some res => some res
  | none =>
  match strat3 nm r with
  | some res => some res
  | none =>
  match strat4 nm r with
  | some res => some res
  | none =>
  match strat5 nm r with
  | some res => some res
  | none =>
  match strat6 nm r with
  | some res => some res
  | none =>
  match strat7 nm r with
  | some res => some res
  | none =>
  match strat8 nm r with
  | some res => some res
  | none =>
  match strat9 nm r with
  | some res => some res
  | none => none

/-- The per-record body of the loop of `match_dataset`: the `match_info`
dictionary after the strategy cascade and the final `if best:` block. -/
def matchRecord (nm sm : LookupMap) (r : Record) : MatchInfo :=
  let base : MatchInfo :=
    { unit := r.unit.getD [], symbol := r.symbol.getD [],
      property := r.property.getD [], quantity := r.quantity.getD [],
      system := r.system.getD [],
      matched := false, match_method := none, match_uo_uri := none,
      match_uo_label := none, match_uo_id := none, all_matches := [] }
  match runStrategies nm sm r with
  | none => base
  | some (m, e, aud) =>
    { base with
      matched := true
      match_method := some m
      match_uo_uri := some e.uri
      match_uo_label := e.label
      match_uo_id := some e.id
      all_matches := aud }

/-- `match_dataset(dataset, uo_entries)`: build the two indices once, then
match each record independently; also return the matched count. -/
def match_dataset (dataset : List Record) (entries : List Entity) :
    List MatchInfo × Nat :=
  let maps := build_uo_lookup entries
  let results := dataset.map (matchRecord maps.1 maps.2)
  (results, (results.filter (fun r => r.matched)).length)

/-!
Spec-side definitions.  These follow the wording of the specification (and of
the claims under check), to be compared against the source-derived functions
above.
-/

/-- The word tokens the code's plausibility filter actually draws from the
candidate: words of the label and of the exact/related synonyms (per synonym).
Used to state the amended C3. -/
def candWords (e : Entity) : List Str :=
  wordsOf (pyLower (e.label.getD [])) ++
    cmap (fun s => wordsOf (pyLower s))
      (e.exact_synonyms ++ e.related_synonyms)

/-- Claim C3 as stated: clause (a) (and (c)) read the shared-word tokens from
the candidate's label, all synonyms, and its definition. -/
def claimC3spec (name : Str) (e : Entity) : Bool :=
  let nl := pyLower name
  let nw := wordsOf nl
  let lbl := pyLower (e.label.getD [])
  let defn := pyLower (e.definition.getD [])
  let allW := wordsOf lbl ++
    cmap (fun s => wordsOf (pyLower s))
      (e.exact_synonyms ++ e.related_synonyms ++ e.narrow_synonyms) ++
    wordsOf defn
  (nw.any fun w => allW.any (fun w2 => w2 = w)) ||
  (substrOf lbl nl || substrOf nl lbl) ||
  (nw.any fun uw => allW.any (fun ow =>
    3 ≤ uw.length && 3 ≤ ow.length && (substrOf uw ow || substrOf ow uw))) ||
  (nw.any fun uw => 4 ≤ uw.length && substrOf uw defn)

/-- Claim C3 amended: clauses (a) and (c) draw word tokens only from the
label and the exact/related synonyms; the definition enters only through
clause (d), narrow synonyms not at all. -/
def amendedC3spec (name : Str) (e : Entity) : Bool :=
  let nl := pyLower name
  let nw := wordsOf nl
  let lbl := pyLower (e.label.getD [])
  (nw.any fun w => (candWords e).any (fun w2 => w2 = w)) ||
  (substrOf lbl nl || substrOf nl lbl) ||
  (nw.any fun uw => (candWords e).any (fun ow =>
    3 ≤ uw.length && 3 ≤ ow.length && (substrOf uw ow || substrOf ow uw))) ||
  (nw.any fun uw => 4 ≤ uw.length && substrOf uw (pyLower (e.definition.getD [])))

/-- Claim C4's symbol-eligibility condition as stated: at most 15 characters,
no internal spaces, and either a digit, an uppercase letter or a special
character anywhere, or a short all-lowercase alphabetic token; ambiguous
single letters excluded. -/
def claimC4cond (syn : Str) : Bool :=
  let t := pyStrip syn
  t.length ≤ 15 && !(t.any (fun c => c = ' ')) &&
  (t.any isDigitChar || t.any isUpperAZ || t.any isSpecialSymChar ||
    (!t.isEmpty && t.all isLowerAZ && t.length ≤ 5)) &&
  !(t.length = 1 && t.any (fun c => SINGLE_CHAR_PREFIX_SYMBOLS.any (fun a => a = c)))

/-- Claim C4 amended: the condition the code actually applies — non-empty
after stripping, not a `10^[k]` power synonym, at most 15 characters, free of
the space character, and either a special character (`/ ^ µ ° Ω ² ³`), or an
uppercase letter in a string of at most 10 characters, or an all-lowercase
ASCII-alphabetic token of at most 5 characters (a digit alone confers
nothing); ambiguous single letters excluded. -/
def amendedCondC4 (syn : Str) : Bool :=
  let t := pyStrip syn
  !t.isEmpty && !isPowerSyn t && !(t.any (fun c => c = ' ')) &&
  t.length ≤ 15 &&
  (t.any isSpecialSymChar || (t.any isUpperAZ && t.length ≤ 10) ||
    (t.length ≤ 5 && !t.isEmpty && t.all isLowerAZ)) &&
  !(t.length = 1 && t.any (fun c => SINGLE_CHAR_PREFIX_SYMBOLS.any (fun a => a = c)))

/-!
Concrete entities and records used by counterexamples and witnesses.
-/

/-- An entity with label "newton" and symbol synonym "N". -/
def entNewton : Entity :=
  { uri := str "http://purl.obolibrary.org/obo/UO_0000111",
    id := str "UO_0000111", label := some (str "newton"),
    definition := none, exact_synonyms := [str "N"],
    related_synonyms := [], narrow_synonyms := [], deprecated := false,
    parent_classes := [] }

/-- Record with unit "newton" and symbol "N". -/
def recNewton : Record :=
  { unit := some (str "newton"), symbol := some (str "N"), plural := none,
    canonical_unit := none, alternate_unit := none, property := none,
    quantity := none, system := none }

/-- Entity A of the C2 counterexample: synonym "foos", smaller input
position. -/
def entC2A : Entity :=
  { uri := str "u:a", id := str "a", label := some (str "alpha"),
    definition := none, exact_synonyms := [str "foos"],
    related_synonyms := [], narrow_synonyms := [], deprecated := false,
    parent_classes := [] }

/-- Entity B of the C2 counterexample: label "foos". -/
def entC2B : Entity :=
  { uri := str "u:b", id := str "b", label := some (str "foos"),
    definition := none, exact_synonyms := [], related_synonyms := [],
    narrow_synonyms := [], deprecated := false, parent_classes := [] }

/-- Record of the C2 counterexample: unmatched unit, plural "foos". -/
def recC2 : Record :=
  { unit := some (str "nope"), symbol := none, plural := some (str "foos"),
    canonical_unit := none, alternate_unit := none, property := none,
    quantity := none, system := none }

/-- Entity of the C3 counterexample: label shares nothing with "rod", but the
definition contains the three-letter word "rod". -/
def entC3 : Entity :=
  { uri := str "u:c3", id := str "c3", label := some (str "zzz"),
    definition := some (str "length of a rod"), exact_synonyms := [],
    related_synonyms := [], narrow_synonyms := [], deprecated := false,
    parent_classes := [] }

/-- Entity of the C4 counterexample: its only synonym "m2" contains a digit
but is not symbol-like for the code. -/
def entC4 : Entity :=
  { uri := str "u:c4", id := str "c4", label := some (str "thing"),
    definition := none, exact_synonyms := [str "m2"], related_synonyms := [],
    narrow_synonyms := [], deprecated := false, parent_classes := [] }

/-- Entity A of the C5 counterexample: larger uri, earlier input position. -/
def entC5A : Entity :=
  { uri := str "u:b", id := str "b", label := some (str "foo"),
    definition := none, exact_synonyms := [], related_synonyms := [],
    narrow_synonyms := [], deprecated := false, parent_classes := [] }

/-- Entity B of the C5 counterexample: smaller uri, later input position. -/
def entC5B : Entity :=
  { uri := str "u:a", id := str "a", label := some (str "foo"),
    definition := none, exact_synonyms := [], related_synonyms := [],
    narrow_synonyms := [], deprecated := false, parent_classes := [] }

/-- Entity of the C7 example: label "kilogram per cubic metre". -/
def entC7 : Entity :=
  { uri := str "u:kgm3", id := str "kgm3",
    label := some (str "kilogram per cubic metre"), definition := none,
    exact_synonyms := [], related_synonyms := [], narrow_synonyms := [],
    deprecated := false, parent_classes := [] }

/-- Record of the C7 example: unit "kilogram per cubic meter". -/
def recC7 : Record :=
  { unit := some (str "kilogram per cubic meter"), symbol := none,
    plural := none, canonical_unit := none, alternate_unit := none,
    property := none, quantity := none, system := none }

/-- The all-absent record, for the totality claim. -/
def recEmpty : Record :=
  { unit := none, symbol := none, plural := none, canonical_unit := none,
    alternate_unit := none, property := none, quantity := none,
    system := none }

/-- Record whose unit name hits the bucket "foos" directly (label tie-break
witness). -/
def recC2W : Record :=
  { unit := some (str "foos"), symbol := none, plural := none,
    canonical_unit := none, alternate_unit := none, property := none,
    quantity := none, system := none }

/-!
Lemmas about the lookup-map construction: the bucket of a key collects, in
input order, exactly the contributions whose key matches.
-/

theorem cmap_mem {α β : Type} (f : α → List β) (l : List α) (b : β) :
    b ∈ cmap f l ↔ ∃ a ∈ l, b ∈ f a := by
  induction l with
  | nil => simp [cmap]
  | cons a l ih => simp [cmap, List.mem_append, ih]

theorem cmap_append {α β : Type} (f : α → List β) (l1 l2 : List α) :
    cmap f (l1 ++ l2) = cmap f l1 ++ cmap f l2 := by
  induction l1 with
  | nil => simp [cmap]
  | cons a l ih => simp [cmap, ih]

theorem findB_bucketAdd (m : LookupMap) (k k2 : Str) (v : Entity × Str) :
    findB (bucketAdd m k v) k2 =
      if k2 = k then findB m k2 ++ [v] else findB m k2 := by
  induction m with
  | nil =>
    by_cases h : k2 = k
    · subst h; simp [bucketAdd, findB]
    · have h' : ¬ k = k2 := fun hh => h hh.symm
      simp [bucketAdd, findB, h, h']
  | cons p m ih =>
    obtain ⟨k', vs⟩ := p
    by_cases h1 : k' = k
    · subst h1
      by_cases h2 : k2 = k'
      · subst h2; simp [bucketAdd, findB]
      · have h2' : ¬ k' = k2 := fun hh => h2 hh.symm
        simp [bucketAdd, findB, h2, h2']
    · by_cases h2 : k' = k2
      · have h3 : ¬ k2 = k := fun hh => h1 (h2.trans hh)
        simp [bucketAdd, findB, h1, h2, h3, ih]
      · simp [bucketAdd, findB, h1, h2, ih]

theorem findB_foldPairs (k : Str) (ps : List (Str × (Entity × Str))) :
    ∀ m : LookupMap,
      findB (ps.foldl (fun m2 kv => bucketAdd m2 kv.1 kv.2) m) k =
        findB m k ++ (ps.filter (fun kv => kv.1 = k)).map Prod.snd := by
  induction ps with
  | nil => intro m; simp
  | cons kv ps ih =>
    intro m
    simp only [List.foldl_cons]
    rw [ih, findB_bucketAdd]
    by_cases h : k = kv.1
    · simp [List.filter_cons, h, List.append_assoc]
    · simp only [if_neg h, List.filter_cons]
      have : ¬ kv.1 = k := fun hh => h (Eq.symm hh)
      simp [this]

theorem findB_buildFold (f : Entity → List (Str × (Entity × Str))) (k : Str)
    (entries : List Entity) :
    ∀ m : LookupMap,
      findB (entries.foldl
          (fun m e => (f e).foldl (fun m2 kv => bucketAdd m2 kv.1 kv.2) m) m) k =
        findB m k ++ ((cmap f entries).filter (fun kv => kv.1 = k)).map Prod.snd := by
  induction entries with
  | nil => intro m; simp [cmap]
  | cons e entries ih =>
    intro m
    simp only [List.foldl_cons]
    rw [ih, findB_foldPairs]
    simp [cmap, List.filter_append, List.append_assoc]

/-- The bucket of `k` in a built map is the ordered list of matching
contributions, walking the entities in input order. -/
theorem findB_buildMap (f : Entity → List (Str × (Entity × Str)))
    (entries : List Entity) (k : Str) :
    findB (buildMap f entries) k =
      ((cmap f entries).filter (fun kv => kv.1 = k)).map Prod.snd := by
  have h := findB_buildFold f k entries []
  simpa [buildMap, findB] using h

theorem nameSynPair_eq (e : Entity) (tag syn : Str) (kv : Str × (Entity × Str))
    (h : nameSynPair e tag syn = some kv) : kv.2 = (e, tag) := by
  unfold nameSynPair at h
  simp only at h
  split_ifs at h
  cases h
  rfl

theorem symPairOf_eq (e : Entity) (tag syn : Str) (kv : Str × (Entity × Str))
    (h : symPairOf e tag syn = some kv) :
    kv.2 = (e, tag ++ str "_as_symbol") := by
  unfold symPairOf at h
  simp only at h
  split_ifs at h
  cases h
  rfl

/-- Every name-map contribution of an entity carries that entity, and only
non-excluded entities contribute. -/
theorem entryNamePairs_sound (e : Entity) (kv : Str × (Entity × Str))
    (h : kv ∈ entryNamePairs e) : kv.2.1 = e ∧ excludedB e = false := by
  unfold entryNamePairs at h
  by_cases hex : excludedB e
  · simp [hex] at h
  · refine ⟨?_, by simpa using hex⟩
    simp only [hex, if_false, List.mem_append, Bool.false_eq_true] at h
    rcases h with ((h | h) | h) | h
    · split_ifs at h with hl
      · simp at h
      · simp only [List.mem_singleton] at h
        subst h
        rfl
    · obtain ⟨syn, _, hs⟩ := List.mem_filterMap.mp h
      rw [nameSynPair_eq e _ syn kv hs]
    · obtain ⟨syn, _, hs⟩ := List.mem_filterMap.mp h
      rw [nameSynPair_eq e _ syn kv hs]
    · obtain ⟨syn, _, hs⟩ := List.mem_filterMap.mp h
      rw [nameSynPair_eq e _ syn kv hs]

/-- Every symbol-map contribution of an entity carries that entity, and only
non-excluded entities contribute. -/
theorem entrySymPairs_sound (e : Entity) (kv : Str × (Entity × Str))
    (h : kv ∈ entrySymPairs e) : kv.2.1 = e ∧ excludedB e = false := by
  unfold entrySymPairs at h
  by_cases hex : excludedB e
  · simp [hex] at h
  · refine ⟨?_, by simpa using hex⟩
    simp only [hex, if_false, List.mem_append, Bool.false_eq_true] at h
    rcases h with (h | h) | h
    · obtain ⟨syn, _, hs⟩ := List.mem_filterMap.mp h
      rw [symPairOf_eq e _ syn kv hs]
    · obtain ⟨syn, _, hs⟩ := List.mem_filterMap.mp h
      rw [symPairOf_eq e _ syn kv hs]
    · obtain ⟨syn, _, hs⟩ := List.mem_filterMap.mp h
      rw [symPairOf_eq e _ syn kv hs]

/-- Every pair in a bucket of the built name map belongs to a non-excluded
entity of the input, and is that pair's own entity. -/
theorem nameBucket_sound (entries : List Entity) (k : Str)
    (q : Entity × Str) (h : q ∈ findB (build_uo_lookup entries).1 k) :
    q.1 ∈ entries ∧ excludedB q.1 = false := by
  rw [build_uo_lookup] at h
  simp only at h
  rw [findB_buildMap] at h
  obtain ⟨kv, hkv, hq⟩ := List.mem_map.mp h
  have hkv2 := List.mem_filter.mp hkv
  obtain ⟨e, he, hin⟩ := (cmap_mem _ _ _).mp hkv2.1
  obtain ⟨heq, hexc⟩ := entryNamePairs_sound e kv hin
  rw [← hq, heq]
  exact ⟨he, hexc⟩

/-- Same for the built symbol map. -/
theorem symBucket_sound (entries : List Entity) (k : Str)
    (q : Entity × Str) (h : q ∈ findB (build_uo_lookup entries).2 k) :
    q.1 ∈ entries ∧ excludedB q.1 = false := by
  rw [build_uo_lookup] at h
  simp only at h
  rw [findB_buildMap] at h
  obtain ⟨kv, hkv, hq⟩ := List.mem_map.mp h
  have hkv2 := List.mem_filter.mp hkv
  obtain ⟨e, he, hin⟩ := (cmap_mem _ _ _).mp hkv2.1
  obtain ⟨heq, hexc⟩ := entrySymPairs_sound e kv hin
  rw [← hq, heq]
  exact ⟨he, hexc⟩

/-!
Claim C5 — bucket ordering.
-/

/-- C5 counterexample: with extraction order `[entC5A, entC5B]` and
`entC5B.uri < entC5A.uri`, the bucket of "foo" lists `entC5A` first — the
first candidate is not the entity with the smaller uri, contradicting the
claim that buckets are ordered by uri independently of extraction order. -/
theorem c5_counterexample :
    findB (build_uo_lookup [entC5A, entC5B]).1 (str "foo") =
      [(entC5A, str "label"), (entC5B, str "label")] ∧
    strLt entC5B.uri entC5A.uri = true ∧ entC5A ≠ entC5B := by decide

/-- C5 (amended): the entities are never sorted; every bucket of the name
index and of the symbol index lists, in the order the entities appear in the
input (their extraction order), exactly the contributions keyed by the bucket
key, so the "first candidate" is the one contributed by the earliest input
entity, not the one with the smallest uri. -/
theorem c5_amended (entries : List Entity) (k : Str) :
    findB (build_uo_lookup entries).1 k =
      ((cmap entryNamePairs entries).filter (fun kv => kv.1 = k)).map Prod.snd ∧
    findB (build_uo_lookup entries).2 k =
      ((cmap entrySymPairs entries).filter (fun kv => kv.1 = k)).map Prod.snd :=
  ⟨findB_buildMap entryNamePairs entries k, findB_buildMap entrySymPairs entries k⟩

/-!
Claim C4 — symbol-index eligibility (counterexample part; the amended
characterisation follows further below).
-/

/-- C4 counterexample: the synonym "m2" of the non-excluded entity `entC4`
satisfies the claim's eligibility condition (at most 15 characters, no
space, contains a digit, not an ambiguous single letter), yet the built
symbol index is empty — the code recognises no digit-only evidence of
symbol-likeness. -/
theorem c4_counterexample :
    claimC4cond (str "m2") = true ∧
    excludedB entC4 = false ∧ (str "m2") ∈ entC4.exact_synonyms ∧
    (build_uo_lookup [entC4]).2 = [] := by decide

/-!
Claim C3 — plausibility filter (counterexample part).
-/

/-- C3 counterexample: dataset name "rod" against `entC3`, whose definition
contains the three-letter word "rod" while its label shares nothing: the
claim's clause (a) accepts (word tokens drawn from label, synonyms or
definition), but the code rejects the pair. -/
theorem c3_counterexample :
    claimC3spec (str "rod") entC3 = true ∧
    symbol_match_plausibility (str "rod") entC3 = false := by decide

/-!
Claim C7 — the "kilogram per cubic metre" example.
-/

/-- C7 counterexample: the record "kilogram per cubic meter" against an index
holding only "kilogram per cubic metre" does match, but the winning strategy
is the whole-name spelling-variant strategy, not the per-decomposition
strategy the claim names. -/
theorem c7_counterexample :
    (matchRecord (build_uo_lookup [entC7]).1 (build_uo_lookup [entC7]).2
        recC7).matched = true ∧
    (matchRecord (build_uo_lookup [entC7]).1 (build_uo_lookup [entC7]).2
        recC7).match_method ≠ some (str "per_variant") := by decide

/-- C7 (amended): the record resolves to the indexed entity with
`matched = true`, via the whole-name spelling-variant strategy
(`spelling_variant`), which precedes per-decomposition in the cascade and
already rewrites "meter" to "metre". -/
theorem c7_amended :
    (matchRecord (build_uo_lookup [entC7]).1 (build_uo_lookup [entC7]).2
        recC7).matched = true ∧
    (matchRecord (build_uo_lookup [entC7]).1 (build_uo_lookup [entC7]).2
        recC7).match_uo_uri = some entC7.uri ∧
    (matchRecord (build_uo_lookup [entC7]).1 (build_uo_lookup [entC7]).2
        recC7).match_method = some (str "spelling_variant") := by decide

/-!
Claims C1 and C2 — strategy priority and the label tie-break.
-/

theorem unit_tag_ne (tg : Str) :
    str "unit_name_to_" ++ tg ≠ str "symbol_to_synonym" := by
  intro h
  have h1 : (str "unit_name_to_" ++ tg).head? = some 'u' := rfl
  rw [h] at h1
  exact absurd h1 (by decide)

/-- When the normalized unit name has a non-empty bucket, strategy 1 fires
and returns an entity of that bucket under a `unit_name_to_` method tag. -/
theorem strat1_fires (nm : LookupMap) (r : Record)
    (h1 : normalize_name (r.unit.getD []) ≠ [])
    (p : Entity × Str) (ps : List (Entity × Str))
    (hb : findB nm (normalize_name (r.unit.getD [])) = p :: ps) :
    ∃ tg e aud, strat1 nm r = some (str "unit_name_to_" ++ tg, e, aud) ∧
      e ∈ (p :: ps).map Prod.fst := by
  cases hf : (p :: ps).filter (fun q => q.2 = str "label") with
  | cons lp lps =>
    have hs : strat1 nm r = some (str "unit_name_to_label", lp.1,
        (p :: ps).map (fun q => mkAudit (str "unit_name_to_" ++ q.2) q.1)) := by
      simp only [strat1]
      rw [hb, if_neg h1]
      simp [hf]
    have he : str "unit_name_to_" ++ str "label" = str "unit_name_to_label" := by
      decide
    refine ⟨str "label", lp.1,
      (p :: ps).map (fun q => mkAudit (str "unit_name_to_" ++ q.2) q.1),
      by rw [he]; exact hs, ?_⟩
    have hlp : lp ∈ (p :: ps).filter (fun q => q.2 = str "label") := by
      rw [hf]; exact List.mem_cons_self lp lps
    exact List.mem_map_of_mem Prod.fst (List.mem_of_mem_filter hlp)
  | nil =>
    have hs : strat1 nm r = some (str "unit_name_to_" ++ p.2, p.1,
        (p :: ps).map (fun q => mkAudit (str "unit_name_to_" ++ q.2) q.1)) := by
      simp only [strat1]
      rw [hb, if_neg h1]
      simp [hf]
    exact ⟨p.2, p.1, _, hs, List.mem_map_of_mem Prod.fst (List.mem_cons_self p ps)⟩

/-- C1: if the record's normalized unit name has at least one hit in the name
index and its symbol also has at least one plausible hit in the symbol index,
the cascade returns the strategy-1 result: an entity of the unit name's
bucket, under a `unit_name_to_` tag that is never the symbol tag. -/
theorem c1_direct_name_priority (nm sm : LookupMap) (r : Record)
    (h1 : normalize_name (r.unit.getD []) ≠ [])
    (h2 : findB nm (normalize_name (r.unit.getD [])) ≠ [])
    (h3 : ∃ q ∈ findB sm (normalize_symbol_for_match (r.symbol.getD [])),
      symbol_match_plausibility (r.unit.getD []) q.1 = true) :
    ∃ tg e aud,
      runStrategies nm sm r = some (str "unit_name_to_" ++ tg, e, aud) ∧
      e ∈ (findB nm (normalize_name (r.unit.getD []))).map Prod.fst ∧
      str "unit_name_to_" ++ tg ≠ str "symbol_to_synonym" := by
  cases hb : findB nm (normalize_name (r.unit.getD [])) with
  | nil => exact absurd hb h2
  | cons p ps =>
    obtain ⟨tg, e, aud, hs, hm⟩ := strat1_fires nm r h1 p ps hb
    exact ⟨tg, e, aud, by simp [runStrategies, hs], hm, unit_tag_ne tg⟩

/-- C1 witness: `entNewton` with label "newton" and symbol synonym "N",
record `recNewton` with unit "newton" and symbol "N" — both hypotheses hold,
and the conclusion is realised. -/
theorem c1_witness :
    (normalize_name (recNewton.unit.getD []) ≠ [] ∧
     findB (build_uo_lookup [entNewton]).1
        (normalize_name (recNewton.unit.getD [])) ≠ [] ∧
     ∃ q ∈ findB (build_uo_lookup [entNewton]).2
        (normalize_symbol_for_match (recNewton.symbol.getD [])),
      symbol_match_plausibility (recNewton.unit.getD []) q.1 = true) ∧
    ∃ tg e aud,
      runStrategies (build_uo_lookup [entNewton]).1
          (build_uo_lookup [entNewton]).2 recNewton =
        some (str "unit_name_to_" ++ tg, e, aud) ∧
      e ∈ (findB (build_uo_lookup [entNewton]).1
          (normalize_name (recNewton.unit.getD []))).map Prod.fst ∧
      str "unit_name_to_" ++ tg ≠ str "symbol_to_synonym" := by
  refine ⟨⟨by decide, by decide, by decide⟩, ?_⟩
  exact c1_direct_name_priority (build_uo_lookup [entNewton]).1
    (build_uo_lookup [entNewton]).2 recNewton (by decide) (by decide) (by decide)

/-- C2 counterexample: the plural strategy wins with bucket
`[(entC2A, exact_synonym), (entC2B, label)]`; the chosen entity is `entC2A`,
which appears in the bucket only with synonym provenance, although `entC2B`
offers label provenance — the label tie-break does not apply to the plural
strategy. -/
theorem c2_counterexample :
    runStrategies (build_uo_lookup [entC2A, entC2B]).1
        (build_uo_lookup [entC2A, entC2B]).2 recC2 =
      some (str "plural_to_uo", entC2A,
        [mkAudit (str "plural_to_exact_synonym") entC2A,
         mkAudit (str "plural_to_label") entC2B]) ∧
    (entC2A, str "label") ∉
      findB (build_uo_lookup [entC2A, entC2B]).1 (str "foos") ∧
    (entC2B, str "label") ∈
      findB (build_uo_lookup [entC2A, entC2B]).1 (str "foos") ∧
    entC2A ≠ entC2B := by decide

/-- C2 (amended): the label-over-synonym tie-break applies only to the
unit-name strategy: when that strategy wins and its bucket contains a
label-provenance pair, the first such pair's entity is chosen, under the
`unit_name_to_label` tag.  (Every other strategy takes the first bucket
candidate — or first plausible candidate — regardless of provenance, as the
counterexample shows.) -/
theorem c2_amended (nm sm : LookupMap) (r : Record)
    (lp : Entity × Str) (lps : List (Entity × Str))
    (h1 : normalize_name (r.unit.getD []) ≠ [])
    (hf : (findB nm (normalize_name (r.unit.getD []))).filter
        (fun q => q.2 = str "label") = lp :: lps) :
    (∃ aud, runStrategies nm sm r =
        some (str "unit_name_to_label", lp.1, aud)) ∧
      lp ∈ findB nm (normalize_name (r.unit.getD [])) ∧
      lp.2 = str "label" := by
  cases hb : findB nm (normalize_name (r.unit.getD [])) with
  | nil => rw [hb] at hf; simp at hf
  | cons p ps =>
    rw [hb] at hf
    have hs : strat1 nm r = some (str "unit_name_to_label", lp.1,
        (p :: ps).map (fun q => mkAudit (str "unit_name_to_" ++ q.2) q.1)) := by
      simp only [strat1]
      rw [hb, if_neg h1]
      simp [hf]
    have hlp : lp ∈ (p :: ps).filter (fun q => q.2 = str "label") := by
      rw [hf]; exact List.mem_cons_self lp lps
    refine ⟨⟨(p :: ps).map (fun q => mkAudit (str "unit_name_to_" ++ q.2) q.1),
      by simp [runStrategies, hs]⟩, ?_, ?_⟩
    · exact List.mem_of_mem_filter hlp
    · have := (List.mem_filter.mp hlp).2
      simpa using this

/-- C2 witness: record with unit "foos" against the `[entC2A, entC2B]` index:
the unit-name bucket's label pairs are `[(entC2B, label)]`, and the cascade
chooses `entC2B` under the `unit_name_to_label` tag. -/
theorem c2_witness :
    (normalize_name (recC2W.unit.getD []) ≠ [] ∧
     (findB (build_uo_lookup [entC2A, entC2B]).1
          (normalize_name (recC2W.unit.getD []))).filter
        (fun q => q.2 = str "label") = [(entC2B, str "label")]) ∧
    (∃ aud, runStrategies (build_uo_lookup [entC2A, entC2B]).1
          (build_uo_lookup [entC2A, entC2B]).2 recC2W =
        some (str "unit_name_to_label", entC2B, aud)) ∧
      (entC2B, str "label") ∈ findB (build_uo_lookup [entC2A, entC2B]).1
        (normalize_name (recC2W.unit.getD [])) ∧
      (entC2B, str "label").2 = str "label" := by
  refine ⟨⟨by decide, by decide⟩, ?_⟩
  exact c2_amended (build_uo_lookup [entC2A, entC2B]).1
    (build_uo_lookup [entC2A, entC2B]).2 recC2W (entC2B, str "label") []
    (by decide) (by decide)

/-!
Claim C9 — totality over missing or empty fields.
-/

/-- C9: matching is total on records with missing or empty fields: each
strategy whose input field is absent or empty returns no result (it is
skipped and the cascade advances), and when no strategy succeeds the record
yields a result with `matched = false`, no uri, and an empty audit list —
never a failure (the match function is a total Lean function). -/
theorem c9_totality (nm sm : LookupMap) (r : Record) :
    (r.unit.getD [] = [] → strat1 nm r = none ∧ strat6 nm r = none ∧
      strat7 nm r = none ∧ strat8 nm r = none) ∧
    (r.symbol.getD [] = [] → strat2 sm r = none) ∧
    (r.plural.getD [] = [] → strat3 nm r = none) ∧
    (r.alternate_unit.getD [] = [] → strat4 nm r = none ∧ strat9 nm r = none) ∧
    (r.canonical_unit.getD [] = [] → strat5 nm r = none) ∧
    (runStrategies nm sm r = none →
      (matchRecord nm sm r).matched = false ∧
      (matchRecord nm sm r).match_uo_uri = none ∧
      (matchRecord nm sm r).all_matches = []) := by
  refine ⟨?_, ?_, ?_, ?_, ?_, ?_⟩
  · intro h
    refine ⟨?_, ?_, ?_, ?_⟩ <;> simp [strat1, strat6, strat7, strat8, h, normalize_name]
  · intro h
    simp [strat2, h]
  · intro h
    simp [strat3, h]
  · intro h
    exact ⟨by simp [strat4, h, strat4go], by simp [strat9, h, strat9go]⟩
  · intro h
    simp [strat5, h]
  · intro h
    simp [matchRecord, h]

/-- C9 witness: the all-absent record against empty indices — every strategy
is skipped and the result is unmatched. -/
theorem c9_witness :
    strat1 [] recEmpty = none ∧ strat2 [] recEmpty = none ∧
    strat3 [] recEmpty = none ∧ strat4 [] recEmpty = none ∧
    strat5 [] recEmpty = none ∧ strat9 [] recEmpty = none ∧
    (matchRecord [] [] recEmpty).matched = false ∧
    (matchRecord [] [] recEmpty).match_uo_uri = none := by
  have h := c9_totality [] [] recEmpty
  refine ⟨(h.1 rfl).1, h.2.1 rfl, h.2.2.1 rfl, (h.2.2.2.1 rfl).1,
    h.2.2.2.2.1 rfl, (h.2.2.2.1 rfl).2, ?_, ?_⟩
  · exact (h.2.2.2.2.2 (by decide)).1
  · exact (h.2.2.2.2.2 (by decide)).2.1

/-!
Inversion lemmas: whenever a strategy produces a result, the chosen entity
comes from a bucket of the consulted map, and the audit list records exactly
the uris of the winning candidate list.
-/

theorem firstHit_inv (nm : LookupMap) (vs : List Str) (v : Str)
    (p : Entity × Str) (ps : List (Entity × Str))
    (h : firstHit nm vs = some (v, p, ps)) : findB nm v = p :: ps := by
  induction vs with
  | nil => simp [firstHit] at h
  | cons w ws ih =>
    simp only [firstHit] at h
    cases hw : findB nm w with
    | nil => rw [hw] at h; exact ih h
    | cons q qs =>
      rw [hw] at h
      simp only [Option.some.injEq, Prod.mk.injEq] at h
      obtain ⟨hv, hq, hqs⟩ := h
      subst hv; subst hq; subst hqs
      exact hw

theorem try_spelling_inv (nm : LookupMap) (t : Str) (e : Entity)
    (m v : Str) (pairs : List (Entity × Str))
    (h : try_spelling_variant_match nm t = some (e, m, v, pairs)) :
    findB nm v = pairs ∧ ∃ tg ps, pairs = (e, tg) :: ps := by
  unfold try_spelling_variant_match at h
  split at h
  · simp at h
  · rename_i v' p ps hfh
    simp only [Option.some.injEq, Prod.mk.injEq] at h
    obtain ⟨he, _, hv, hp⟩ := h
    subst he; subst hv; subst hp
    refine ⟨firstHit_inv nm _ _ _ _ hfh, p.2, ps, ?_⟩
    rw [Prod.mk.eta]

theorem try_per_inv (nm : LookupMap) (t : Str) (e : Entity)
    (m v : Str) (pairs : List (Entity × Str))
    (h : try_per_decomposition_match nm t = some (e, m, v, pairs)) :
    findB nm v = pairs ∧ ∃ tg ps, pairs = (e, tg) :: ps := by
  unfold try_per_decomposition_match at h
  split at h
  · simp at h
  · split at h
    · simp at h
    · rename_i v' p ps hfh
      simp only [Option.some.injEq, Prod.mk.injEq] at h
      obtain ⟨he, _, hv, hp⟩ := h
      subst he; subst hv; subst hp
      refine ⟨firstHit_inv nm _ _ _ _ hfh, p.2, ps, ?_⟩
      rw [Prod.mk.eta]

theorem shapeTry_inv (nm : LookupMap) (sh t : Str) (e : Entity)
    (m v : Str) (pairs : List (Entity × Str))
    (h : shapeTry nm sh t = some (e, m, v, pairs)) :
    findB nm v = pairs ∧ ∃ tg ps, pairs = (e, tg) :: ps := by
  simp only [shapeTry] at h
  split at h
  · split at h
    · simp at h
    · rename_i v' p ps hfh
      simp only [Option.some.injEq, Prod.mk.injEq] at h
      obtain ⟨he, _, hv, hp⟩ := h
      subst he; subst hv; subst hp
      refine ⟨firstHit_inv nm _ _ _ _ hfh, p.2, ps, ?_⟩
      rw [Prod.mk.eta]
  · simp at h

theorem try_shape_inv (nm : LookupMap) (t : Str) (e : Entity)
    (m v : Str) (pairs : List (Entity × Str))
    (h : try_shape_variant_match nm t = some (e, m, v, pairs)) :
    findB nm v = pairs ∧ ∃ tg ps, pairs = (e, tg) :: ps := by
  unfold try_shape_variant_match at h
  split at h
  · rename_i r h1
    simp only [Option.some.injEq] at h
    subst h
    exact shapeTry_inv nm _ t e m v pairs h1
  · exact shapeTry_inv nm _ t e m v pairs h

theorem strat1_inv (nm : LookupMap) (r : Record) (m : Str) (e : Entity)
    (aud : List Audit) (h : strat1 nm r = some (m, e, aud)) :
    ∃ (L : List (Entity × Str)) (k tg : Str), ((e, tg) ∈ L) ∧
      (∀ q ∈ L, q ∈ findB nm k) ∧
      aud.map Audit.uo_uri = L.map (fun q => q.1.uri) := by
  by_cases h1 : normalize_name (r.unit.getD []) = []
  · simp [strat1, h1] at h
  · cases hb : findB nm (normalize_name (r.unit.getD [])) with
    | nil => simp [strat1, h1, hb] at h
    | cons p ps =>
      cases hf : (p :: ps).filter (fun q => q.2 = str "label") with
      | cons lp lps =>
        have hs : strat1 nm r = some (str "unit_name_to_label", lp.1,
            (p :: ps).map (fun q => mkAudit (str "unit_name_to_" ++ q.2) q.1)) := by
          simp only [strat1]
          rw [hb, if_neg h1]
          simp [hf]
        rw [hs] at h
        simp only [Option.some.injEq, Prod.mk.injEq] at h
        obtain ⟨hm, he, ha⟩ := h
        subst he; subst ha
        refine ⟨p :: ps, normalize_name (r.unit.getD []), lp.2, ?_, ?_, ?_⟩
        · have hlp : lp ∈ (p :: ps).filter (fun q => q.2 = str "label") := by
            rw [hf]; exact List.mem_cons_self lp lps
          exact Prod.mk.eta ▸ List.mem_of_mem_filter hlp
        · intro q hq; rw [hb]; exact hq
        · simp [List.map_map, mkAudit, Function.comp]
      | nil =>
        have hs : strat1 nm r = some (str "unit_name_to_" ++ p.2, p.1,
            (p :: ps).map (fun q => mkAudit (str "unit_name_to_" ++ q.2) q.1)) := by
          simp only [strat1]
          rw [hb, if_neg h1]
          simp [hf]
        rw [hs] at h
        simp only [Option.some.injEq, Prod.mk.injEq] at h
        obtain ⟨hm, he, ha⟩ := h
        subst he; subst ha
        refine ⟨p :: ps, normalize_name (r.unit.getD []), p.2, ?_, ?_, ?_⟩
        · exact Prod.mk.eta ▸ List.mem_cons_self p ps
        · intro q hq; rw [hb]; exact hq
        · simp [List.map_map, mkAudit, Function.comp]

theorem strat2_inv (sm : LookupMap) (r : Record) (m : Str) (e : Entity)
    (aud : List Audit) (h : strat2 sm r = some (m, e, aud)) :
    ∃ (L : List (Entity × Str)) (k tg : Str), ((e, tg) ∈ L) ∧
      (∀ q ∈ L, q ∈ findB sm k) ∧
      aud.map Audit.uo_uri = L.map (fun q => q.1.uri) := by
  by_cases h0 : r.symbol.getD [] = []
  · simp [strat2, h0] at h
  · by_cases h1 : normalize_symbol_for_match (r.symbol.getD []) = []
    · simp [strat2, h0, h1] at h
    · cases hf : (findB sm (normalize_symbol_for_match (r.symbol.getD []))).filter
          (fun q => symbol_match_plausibility (r.unit.getD []) q.1) with
      | nil => simp [strat2, h0, h1, hf] at h
      | cons q qs =>
        have hs : strat2 sm r = some (str "symbol_to_synonym", q.1,
            (q :: qs).map (fun p => mkAudit (str "symbol_to_" ++ p.2) p.1)) := by
          simp only [strat2]
          rw [if_neg h0, if_neg h1, hf]
        rw [hs] at h
        simp only [Option.some.injEq, Prod.mk.injEq] at h
        obtain ⟨hm, he, ha⟩ := h
        subst he; subst ha
        refine ⟨q :: qs, normalize_symbol_for_match (r.symbol.getD []), q.2,
          ?_, ?_, ?_⟩
        · exact Prod.mk.eta ▸ List.mem_cons_self q qs
        · intro x hx
          have hx2 : x ∈ (findB sm (normalize_symbol_for_match
              (r.symbol.getD []))).filter
              (fun q2 => symbol_match_plausibility (r.unit.getD []) q2.1) := by
            rw [hf]; exact hx
          exact List.mem_of_mem_filter hx2
        · simp [List.map_map, mkAudit, Function.comp]

theorem strat3_inv (nm : LookupMap) (r : Record) (m : Str) (e : Entity)
    (aud : List Audit) (h : strat3 nm r = some (m, e, aud)) :
    ∃ (L : List (Entity × Str)) (k tg : Str), ((e, tg) ∈ L) ∧
      (∀ q ∈ L, q ∈ findB nm k) ∧
      aud.map Audit.uo_uri = L.map (fun q => q.1.uri) := by
  by_cases h0 : r.plural.getD [] = []
  · simp [strat3, h0] at h
  · by_cases h1 : normalize_name (r.plural.getD []) = []
    · simp [strat3, h0, h1] at h
    · cases hb : findB nm (normalize_name (r.plural.getD [])) with
      | nil => simp [strat3, h0, h1, hb] at h
      | cons p ps =>
        have hs : strat3 nm r = some (str "plural_to_uo", p.1,
            (p :: ps).map (fun q => mkAudit (str "plural_to_" ++ q.2) q.1)) := by
          simp only [strat3]
          rw [if_neg h0, if_neg h1, hb]
        rw [hs] at h
        simp only [Option.some.injEq, Prod.mk.injEq] at h
        obtain ⟨hm, he, ha⟩ := h
        subst he; subst ha
        refine ⟨p :: ps, normalize_name (r.plural.getD []), p.2, ?_, ?_, ?_⟩
        · exact Prod.mk.eta ▸ List.mem_cons_self p ps
        · intro x hx; rw [hb]; exact hx
        · simp [List.map_map, mkAudit, Function.comp]

theorem strat4go_inv (nm : LookupMap) (alts : List Str) (m : Str) (e : Entity)
    (aud : List Audit) (h : strat4go nm alts = some (m, e, aud)) :
    ∃ (L : List (Entity × Str)) (k tg : Str), ((e, tg) ∈ L) ∧
      (∀ q ∈ L, q ∈ findB nm k) ∧
      aud.map Audit.uo_uri = L.map (fun q => q.1.uri) := by
  induction alts with
  | nil => simp [strat4go] at h
  | cons alt rest ih =>
    by_cases h1 : normalize_name alt = []
    · rw [strat4go, if_pos h1] at h
      exact ih h
    · cases hb : findB nm (normalize_name alt) with
      | nil =>
        rw [strat4go, if_neg h1, hb] at h
        exact ih h
      | cons p ps =>
        have hs : strat4go nm (alt :: rest) = some (str "alternate_unit_to_uo",
            p.1, (p :: ps).map (fun q =>
              { mkAudit (str "alternate_unit_to_" ++ q.2) q.1 with
                alternate_unit := some alt })) := by
          rw [strat4go, if_neg h1, hb]
        rw [hs] at h
        simp only [Option.some.injEq, Prod.mk.injEq] at h
        obtain ⟨hm, he, ha⟩ := h
        subst he; subst ha
        refine ⟨p :: ps, normalize_name alt, p.2, ?_, ?_, ?_⟩
        · exact Prod.mk.eta ▸ List.mem_cons_self p ps
        · intro x hx; rw [hb]; exact hx
        · simp [List.map_map, mkAudit, Function.comp]

theorem strat5_inv (nm : LookupMap) (r : Record) (m : Str) (e : Entity)
    (aud : List Audit) (h : strat5 nm r = some (m, e, aud)) :
    ∃ (L : List (Entity × Str)) (k tg : Str), ((e, tg) ∈ L) ∧
      (∀ q ∈ L, q ∈ findB nm k) ∧
      aud.map Audit.uo_uri = L.map (fun q => q.1.uri) := by
  by_cases h0 : r.canonical_unit.getD [] = []
  · simp [strat5, h0] at h
  · by_cases h1 : normalize_name (r.canonical_unit.getD []) = []
    · simp [strat5, h0, h1] at h
    · by_cases h2 : normalize_name (r.canonical_unit.getD []) =
          normalize_name (r.unit.getD [])
      · simp [strat5, h0, h1, h2] at h
      · cases hb : findB nm (normalize_name (r.canonical_unit.getD [])) with
        | nil => simp [strat5, h0, h1, h2, hb] at h
        | cons p ps =>
          have hs : strat5 nm r = some (str "canonical_unit_to_uo", p.1,
              (p :: ps).map (fun q =>
                mkAudit (str "canonical_unit_to_" ++ q.2) q.1)) := by
            simp only [strat5]
            rw [if_neg h0, if_neg h1, if_neg h2, hb]
          rw [hs] at h
          simp only [Option.some.injEq, Prod.mk.injEq] at h
          obtain ⟨hm, he, ha⟩ := h
          subst he; subst ha
          refine ⟨p :: ps, normalize_name (r.canonical_unit.getD []), p.2,
            ?_, ?_, ?_⟩
          · exact Prod.mk.eta ▸ List.mem_cons_self p ps
          · intro x hx; rw [hb]; exact hx
          · simp [List.map_map, mkAudit, Function.comp]

theorem strat6_inv (nm : LookupMap) (r : Record) (m : Str) (e : Entity)
    (aud : List Audit) (h : strat6 nm r = some (m, e, aud)) :
    ∃ (L : List (Entity × Str)) (k tg : Str), ((e, tg) ∈ L) ∧
      (∀ q ∈ L, q ∈ findB nm k) ∧
      aud.map Audit.uo_uri = L.map (fun q => q.1.uri) := by
  by_cases h1 : normalize_name (r.unit.getD []) = []
  · simp [strat6, h1] at h
  · cases hts : try_spelling_variant_match nm (normalize_name (r.unit.getD [])) with
    | none => simp [strat6, h1, hts] at h
    | some res =>
      obtain ⟨e', m', v, pairs⟩ := res
      have hs : strat6 nm r = some (str "spelling_variant", e',
          pairs.map (fun q =>
            { mkAudit (str "spelling_variant_" ++ q.2) q.1 with
              variant := some v })) := by
        simp only [strat6]
        rw [if_neg h1, hts]
      rw [hs] at h
      simp only [Option.some.injEq, Prod.mk.injEq] at h
      obtain ⟨hm, he, ha⟩ := h
      subst he; subst ha
      obtain ⟨hfind, tg, ps, hp⟩ := try_spelling_inv nm _ _ _ _ _ hts
      refine ⟨pairs, v, tg, ?_, ?_, ?_⟩
      · rw [hp]; exact List.mem_cons_self _ _
      · intro q hq; rw [hfind]; exact hq
      · simp [List.map_map, mkAudit, Function.comp]

theorem strat7_inv (nm : LookupMap) (r : Record) (m : Str) (e : Entity)
    (aud : List Audit) (h : strat7 nm r = some (m, e, aud)) :
    ∃ (L : List (Entity × Str)) (k tg : Str), ((e, tg) ∈ L) ∧
      (∀ q ∈ L, q ∈ findB nm k) ∧
      aud.map Audit.uo_uri = L.map (fun q => q.1.uri) := by
  by_cases h1 : normalize_name (r.unit.getD []) = []
  · simp [strat7, h1] at h
  · cases hts : try_per_decomposition_match nm
        (normalize_name (r.unit.getD [])) with
    | none => simp [strat7, h1, hts] at h
    | some res =>
      obtain ⟨e', m', v, pairs⟩ := res
      have hs : strat7 nm r = some (str "per_variant", e',
          pairs.map (fun q => { mkAudit m' q.1 with variant := some v })) := by
        simp only [strat7]
        rw [if_neg h1, hts]
      rw [hs] at h
      simp only [Option.some.injEq, Prod.mk.injEq] at h
      obtain ⟨hm, he, ha⟩ := h
      subst he; subst ha
      obtain ⟨hfind, tg, ps, hp⟩ := try_per_inv nm _ _ _ _ _ hts
      refine ⟨pairs, v, tg, ?_, ?_, ?_⟩
      · rw [hp]; exact List.mem_cons_self _ _
      · intro q hq; rw [hfind]; exact hq
      · simp [List.map_map, mkAudit, Function.comp]

theorem strat8_inv (nm : LookupMap) (r : Record) (m : Str) (e : Entity)
    (aud : List Audit) (h : strat8 nm r = some (m, e, aud)) :
    ∃ (L : List (Entity × Str)) (k tg : Str), ((e, tg) ∈ L) ∧
      (∀ q ∈ L, q ∈ findB nm k) ∧
      aud.map Audit.uo_uri = L.map (fun q => q.1.uri) := by
  by_cases h1 : normalize_name (r.unit.getD []) = []
  · simp [strat8, h1] at h
  · cases hts : try_shape_variant_match nm (normalize_name (r.unit.getD [])) with
    | none => simp [strat8, h1, hts] at h
    | some res =>
      obtain ⟨e', m', v, pairs⟩ := res
      have hs : strat8 nm r = some (str "shape_variant", e',
          pairs.map (fun q => { mkAudit m' q.1 with variant := some v })) := by
        simp only [strat8]
        rw [if_neg h1, hts]
      rw [hs] at h
      simp only [Option.some.injEq, Prod.mk.injEq] at h
      obtain ⟨hm, he, ha⟩ := h
      subst he; subst ha
      obtain ⟨hfind, tg, ps, hp⟩ := try_shape_inv nm _ _ _ _ _ hts
      refine ⟨pairs, v, tg, ?_, ?_, ?_⟩
      · rw [hp]; exact List.mem_cons_self _ _
      · intro q hq; rw [hfind]; exact hq
      · simp [List.map_map, mkAudit, Function.comp]

theorem strat9go_inv (nm : LookupMap) (alts : List Str) (m : Str) (e : Entity)
    (aud : List Audit) (h : strat9go nm alts = some (m, e, aud)) :
    ∃ (L : List (Entity × Str)) (k tg : Str), ((e, tg) ∈ L) ∧
      (∀ q ∈ L, q ∈ findB nm k) ∧
      aud.map Audit.uo_uri = L.map (fun q => q.1.uri) := by
  induction alts with
  | nil => simp [strat9go] at h
  | cons alt rest ih =>
    by_cases h1 : normalize_name alt = []
    · rw [strat9go, if_pos h1] at h
      exact ih h
    · cases hts : try_spelling_variant_match nm (normalize_name alt) with
      | none =>
        rw [strat9go, if_neg h1, hts] at h
        exact ih h
      | some res =>
        obtain ⟨e', m', v, pairs⟩ := res
        have hs : strat9go nm (alt :: rest) =
            some (str "alternate_spelling_variant", e',
              pairs.map (fun q =>
                { mkAudit (str "alternate_spelling_variant_" ++ q.2) q.1 with
                  alternate_unit := some alt, variant := some v })) := by
          rw [strat9go, if_neg h1, hts]
        rw [hs] at h
        simp only [Option.some.injEq, Prod.mk.injEq] at h
        obtain ⟨hm, he, ha⟩ := h
        subst he; subst ha
        obtain ⟨hfind, tg, ps, hp⟩ := try_spelling_inv nm _ _ _ _ _ hts
        refine ⟨pairs, v, tg, ?_, ?_, ?_⟩
        · rw [hp]; exact List.mem_cons_self _ _
        · intro q hq; rw [hfind]; exact hq
        · simp [List.map_map, mkAudit, Function.comp]

/-- Whenever the cascade returns a result, the chosen entity appears in a
bucket of the name or symbol map, and the audit list records the uris of the
winning candidate list. -/
theorem runStrategies_inv (nm sm : LookupMap) (r : Record) (m : Str)
    (e : Entity) (aud : List Audit)
    (h : runStrategies nm sm r = some (m, e, aud)) :
    ∃ (L : List (Entity × Str)) (k tg : Str), ((e, tg) ∈ L) ∧
      ((∀ q ∈ L, q ∈ findB nm k) ∨ (∀ q ∈ L, q ∈ findB sm k)) ∧
      aud.map Audit.uo_uri = L.map (fun q => q.1.uri) := by
  cases h1 : strat1 nm r with
  | some res =>
    have he : runStrategies nm sm r = some res := by simp [runStrategies, h1]
    rw [he] at h
    simp only [Option.some.injEq] at h
    subst h
    obtain ⟨L, k, tg, ha, hb, hc⟩ := strat1_inv nm r m e aud h1
    exact ⟨L, k, tg, ha, Or.inl hb, hc⟩
  | none =>
  cases h2 : strat2 sm r with
  | some res =>
    have he : runStrategies nm sm r = some res := by simp [runStrategies, h1, h2]
    rw [he] at h
    simp only [Option.some.injEq] at h
    subst h
    obtain ⟨L, k, tg, ha, hb, hc⟩ := strat2_inv sm r m e aud h2
    exact ⟨L, k, tg, ha, Or.inr hb, hc⟩
  | none =>
  cases h3 : strat3 nm r with
  | some res =>
    have he : runStrategies nm sm r = some res := by
      simp [runStrategies, h1, h2, h3]
    rw [he] at h
    simp only [Option.some.injEq] at h
    subst h
    obtain ⟨L, k, tg, ha, hb, hc⟩ := strat3_inv nm r m e aud h3
    exact ⟨L, k, tg, ha, Or.inl hb, hc⟩
  | none =>
  cases h4 : strat4 nm r with
  | some res =>
    have he : runStrategies nm sm r = some res := by
      simp [runStrategies, h1, h2, h3, h4]
    rw [he] at h
    simp only [Option.some.injEq] at h
    subst h
    obtain ⟨L, k, tg, ha, hb, hc⟩ := strat4go_inv nm _ m e aud h4
    exact ⟨L, k, tg, ha, Or.inl hb, hc⟩
  | none =>
  cases h5 : strat5 nm r with
  | some res =>
    have he : runStrategies nm sm r = some res := by
      simp [runStrategies, h1, h2, h3, h4, h5]
    rw [he] at h
    simp only [Option.some.injEq] at h
    subst h
    obtain ⟨L, k, tg, ha, hb, hc⟩ := strat5_inv nm r m e aud h5
    exact ⟨L, k, tg, ha, Or.inl hb, hc⟩
  | none =>
  cases h6 : strat6 nm r with
  | some res =>
    have he : runStrategies nm sm r = some res := by
      simp [runStrategies, h1, h2, h3, h4, h5, h6]
    rw [he] at h
    simp only [Option.some.injEq] at h
    subst h
    obtain ⟨L, k, tg, ha, hb, hc⟩ := strat6_inv nm r m e aud h6
    exact ⟨L, k, tg, ha, Or.inl hb, hc⟩
  | none =>
  cases h7 : strat7 nm r with
  | some res =>
    have he : runStrategies nm sm r = some res := by
      simp [runStrategies, h1, h2, h3, h4, h5, h6, h7]
    rw [he] at h
    simp only [Option.some.injEq] at h
    subst h
    obtain ⟨L, k, tg, ha, hb, hc⟩ := strat7_inv nm r m e aud h7
    exact ⟨L, k, tg, ha, Or.inl hb, hc⟩
  | none =>
  cases h8 : strat8 nm r with
  | some res =>
    have he : runStrategies nm sm r = some res := by
      simp [runStrategies, h1, h2, h3, h4, h5, h6, h7, h8]
    rw [he] at h
    simp only [Option.some.injEq] at h
    subst h
    obtain ⟨L, k, tg, ha, hb, hc⟩ := strat8_inv nm r m e aud h8
    exact ⟨L, k, tg, ha, Or.inl hb, hc⟩
  | none =>
  cases h9 : strat9 nm r with
  | some res =>
    have he : runStrategies nm sm r = some res := by
      simp [runStrategies, h1, h2, h3, h4, h5, h6, h7, h8, h9]
    rw [he] at h
    simp only [Option.some.injEq] at h
    subst h
    obtain ⟨L, k, tg, ha, hb, hc⟩ := strat9go_inv nm _ m e aud h9
    exact ⟨L, k, tg, ha, Or.inl hb, hc⟩
  | none =>
    have he : runStrategies nm sm r = none := by
      simp [runStrategies, h1, h2, h3, h4, h5, h6, h7, h8, h9]
    rw [he] at h
    simp at h

/-!
Claim C10 — internal consistency of a match result.
-/

/-- C10: every `matchRecord` result is internally consistent: `matched` holds
iff `match_uo_uri` is non-null, iff the audit list `all_matches` is
non-empty; and when matched, the chosen entity's uri appears among the uris
recorded in `all_matches` by the winning strategy. -/
theorem c10_consistency (nm sm : LookupMap) (r : Record) :
    ((matchRecord nm sm r).matched = true ↔
      (matchRecord nm sm r).match_uo_uri ≠ none) ∧
    ((matchRecord nm sm r).matched = true ↔
      (matchRecord nm sm r).all_matches ≠ []) ∧
    (∀ u, (matchRecord nm sm r).match_uo_uri = some u →
      u ∈ (matchRecord nm sm r).all_matches.map Audit.uo_uri) := by
  cases hr : runStrategies nm sm r with
  | none => simp [matchRecord, hr]
  | some res =>
    obtain ⟨m, e, aud⟩ := res
    obtain ⟨L, k, tg, hin, _, hmap⟩ := runStrategies_inv nm sm r m e aud hr
    have haud : aud ≠ [] := by
      intro hnil
      rw [hnil] at hmap
      have : L = [] := by
        cases L with
        | nil => rfl
        | cons x xs => simp at hmap
      rw [this] at hin
      simp at hin
    refine ⟨by simp [matchRecord, hr], by simp [matchRecord, hr, haud], ?_⟩
    intro u hu
    simp only [matchRecord, hr] at hu ⊢
    simp only [Option.some.injEq] at hu
    subst hu
    rw [hmap]
    exact List.mem_map_of_mem (fun q => q.1.uri) hin

/-- C10 witness: the "newton"/"N" example — matched, and the chosen uri is
recorded in the audit list. -/
theorem c10_witness :
    (matchRecord (build_uo_lookup [entNewton]).1 (build_uo_lookup [entNewton]).2
        recNewton).matched = true ∧
    entNewton.uri ∈ (matchRecord (build_uo_lookup [entNewton]).1
        (build_uo_lookup [entNewton]).2 recNewton).all_matches.map
        Audit.uo_uri := by
  have h := c10_consistency (build_uo_lookup [entNewton]).1
    (build_uo_lookup [entNewton]).2 recNewton
  exact ⟨by decide, h.2.2 entNewton.uri (by decide)⟩

/-!
Claim C8 — excluded entities never matched.
-/

/-- C8: an entity that is deprecated, or whose normalized label is a bare
category placeholder ("unit", "base unit", "prefix"), or whose normalized
label is an SI-prefix word, contributes nothing to either index — every
bucket pair of both built maps is non-excluded — and is never the chosen
entity of any record's match over the built indices. -/
theorem c8_exclusions (entries : List Entity) :
    (∀ k q, q ∈ findB (build_uo_lookup entries).1 k → excludedB q.1 = false) ∧
    (∀ k q, q ∈ findB (build_uo_lookup entries).2 k → excludedB q.1 = false) ∧
    (∀ (r : Record) (m : Str) (e : Entity) (aud : List Audit),
      runStrategies (build_uo_lookup entries).1 (build_uo_lookup entries).2 r =
        some (m, e, aud) → excludedB e = false) := by
  refine ⟨fun k q hq => (nameBucket_sound entries k q hq).2,
    fun k q hq => (symBucket_sound entries k q hq).2, ?_⟩
  intro r m e aud h
  obtain ⟨L, k, tg, hin, hsub, _⟩ := runStrategies_inv _ _ r m e aud h
  cases hsub with
  | inl hn => exact (nameBucket_sound entries k (e, tg) (hn (e, tg) hin)).2
  | inr hs => exact (symBucket_sound entries k (e, tg) (hs (e, tg) hin)).2

/-- C8 witness: the "newton" match — the cascade chooses `entNewton`, and the
theorem yields that it is not excluded. -/
theorem c8_witness : excludedB entNewton = false :=
  (c8_exclusions [entNewton]).2.2 recNewton (str "unit_name_to_label")
    entNewton [mkAudit (str "unit_name_to_label") entNewton] (by decide)

/-!
Claim C6 — the gram/gramme guard.
-/

theorem setAdd_mem (l : List Str) (x y : Str) :
    y ∈ setAdd l x ↔ y ∈ l ∨ y = x := by
  unfold setAdd
  split_ifs with h
  · constructor
    · exact Or.inl
    · rintro (hy | hy)
      · exact hy
      · rw [hy]; exact h
  · simp

theorem mem_setAdd_self (l : List Str) (x : Str) : x ∈ setAdd l x :=
  (setAdd_mem l x x).mpr (Or.inr rfl)

theorem mem_setAdd_of_mem (l : List Str) (x y : Str) (h : y ∈ l) :
    y ∈ setAdd l x :=
  (setAdd_mem l x y).mpr (Or.inl h)

theorem applySwaps_mono (swaps : List (Str × Str)) (t : Str) :
    ∀ (acc : List Str) (y : Str), y ∈ acc → y ∈ applySwaps swaps t acc := by
  induction swaps with
  | nil => intro acc y h; exact h
  | cons sw rest ih =>
    intro acc y h
    simp only [applySwaps, List.foldl_cons] at *
    apply ih
    split_ifs
    · exact mem_setAdd_of_mem _ _ _ h
    · exact h

theorem applySwaps_mem_swap (swaps : List (Str × Str)) (t : Str)
    (sw : Str × Str) (hsw : sw ∈ swaps) (hsub : substrOf sw.1 t = true) :
    ∀ acc : List Str, pyReplace t sw.1 sw.2 ∈ applySwaps swaps t acc := by
  induction swaps with
  | nil => simp at hsw
  | cons a rest ih =>
    intro acc
    rcases List.mem_cons.mp hsw with h | h
    · subst h
      simp only [applySwaps, List.foldl_cons]
      have h1 : pyReplace t sw.1 sw.2 ∈
          (if substrOf sw.1 t = true then setAdd acc (pyReplace t sw.1 sw.2)
           else acc) := by
        rw [if_pos hsub]
        exact mem_setAdd_self _ _
      exact applySwaps_mono rest t _ _ h1
    · simp only [applySwaps, List.foldl_cons]
      exact ih h _

theorem foldl_setAdd_mono (l : List Str) :
    ∀ (acc : List Str) (y : Str), y ∈ acc → y ∈ l.foldl setAdd acc := by
  induction l with
  | nil => intro acc y h; exact h
  | cons x rest ih =>
    intro acc y h
    simp only [List.foldl_cons]
    exact ih _ _ (mem_setAdd_of_mem _ _ _ h)

/-- C6 counterexample: the text "programme" contains "programme", and the
variant set returned for it contains exactly the text with "programme"
rewritten to "program" — the guard does not block the gramme→gram
direction. -/
theorem c6_counterexample :
    substrOf (str "programme") (str "programme") = true ∧
    pyReplace (str "programme") (str "gramme") (str "gram") = str "program" ∧
    (str "program") ∈ generate_spelling_variants (str "programme") := by
  decide

/-- C6 (amended): the guard protects only the gram→gramme direction — for
any text containing "program" that substitution pair is never in the swap
table; the reverse gramme→gram substitution is unguarded: for any text
containing "gramme" (in particular inside "programme"), the text with
"gramme" replaced by "gram" is among the returned variants whenever it
differs from the text. -/
theorem c6_amended :
    (∀ t : Str, substrOf (str "program") t = true →
      (str "gram", str "gramme") ∉ swapsFor t) ∧
    (∀ t : Str, substrOf (str "gramme") t = true →
      pyReplace t (str "gramme") (str "gram") ≠ t →
      pyReplace t (str "gramme") (str "gram") ∈
        generate_spelling_variants t) := by
  constructor
  · intro t h hmem
    unfold swapsFor at hmem
    rcases List.mem_append.mp hmem with h1 | h2
    · rcases List.mem_append.mp h1 with h0 | h1
      · revert h0; decide
      · split_ifs at h1 with hc
        · simp only [Bool.and_eq_true, Bool.not_eq_true'] at hc
          rw [hc.2] at h
          simp at h
        · simp at h1
    · split_ifs at h2 with hc
      · simp only [List.mem_singleton] at h2
        revert h2; decide
      · simp at h2
  · intro t h hne
    have hsw : (str "gramme", str "gram") ∈ swapsFor t := by
      unfold swapsFor
      refine List.mem_append.mpr (Or.inr ?_)
      rw [if_pos h]
      exact List.mem_singleton.mpr rfl
    have h1 : pyReplace t (str "gramme") (str "gram") ∈
        applySwaps (swapsFor t) t [] :=
      applySwaps_mem_swap (swapsFor t) t (str "gramme", str "gram") hsw h []
    simp only [generate_spelling_variants]
    refine List.mem_filter.mpr ⟨?_, by simp [hne]⟩
    exact foldl_setAdd_mono _ _ _ h1

/-- C6 witness: instantiation of the amended claim at "programme": the
gram→gramme pair is absent from the swap table (since "programme" contains
"program"), while the gramme→gram rewrite "program" is among the variants. -/
theorem c6_witness :
    (str "gram", str "gramme") ∉ swapsFor (str "programme") ∧
    pyReplace (str "programme") (str "gramme") (str "gram") ∈
      generate_spelling_variants (str "programme") :=
  ⟨c6_amended.1 (str "programme") (by decide),
   c6_amended.2 (str "programme") (by decide) (by decide)⟩

/-!
Claim C3 — the plausibility filter equals the corrected clause list.  The key
fact: word extraction distributes over the space-separated concatenation that
builds `all_uo_text`, so the filter's word pool is exactly the label words
plus the per-synonym words of the exact and related synonyms.
-/

theorem lowerRunsAux_sep (c : Char) (hc : isLowerAZ c = false) (b : Str) :
    ∀ (a acc : Str),
      lowerRunsAux acc (a ++ c :: b) = lowerRunsAux acc a ++ lowerRunsAux [] b := by
  intro a
  induction a with
  | nil =>
    intro acc
    by_cases hacc : acc = [] <;> simp [lowerRunsAux, hc, hacc]
  | cons d ds ih =>
    intro acc
    by_cases hd : isLowerAZ d = true <;> by_cases hacc : acc = [] <;>
      simp [lowerRunsAux, hd, hacc, ih]

theorem wordsOf_sep (c : Char) (hc : isLowerAZ c = false) (a b : Str) :
    wordsOf (a ++ c :: b) = wordsOf a ++ wordsOf b := by
  unfold wordsOf lowerRuns
  rw [lowerRunsAux_sep c hc b a [], List.filter_append]

theorem wordsOf_synFold (l : List Str) :
    ∀ init : Str,
      wordsOf (l.foldl (fun acc syn => acc ++ ' ' :: pyLower syn) init) =
        wordsOf init ++ cmap (fun s => wordsOf (pyLower s)) l := by
  induction l with
  | nil => intro init; simp [cmap]
  | cons s rest ih =>
    intro init
    simp only [List.foldl_cons, cmap]
    rw [ih, wordsOf_sep ' ' (by decide)]
    simp [List.append_assoc]

/-- The filter's extended word pool equals the spec-side `candWords`. -/
theorem uoWordsExtended_eq (e : Entity) : uoWordsExtended e = candWords e := by
  unfold uoWordsExtended allUoText candWords
  rw [wordsOf_synFold, wordsOf_synFold, cmap_append]
  simp [List.append_assoc]

theorem ite_orChain (a b c d : Bool) :
    (if a then true else if b then true else if c then true else d) =
      (a || b || c || d) := by
  cases a <;> cases b <;> cases c <;> cases d <;> simp

/-- C3 (amended): the plausibility filter accepts exactly when one of the
four clauses holds, with the word-sharing clauses (a) and (c) drawing their
candidate-side tokens only from the label and the exact/related synonyms;
the definition text enters only through clause (d) (a ≥4-letter word of the
dataset name inside the definition), and narrow synonyms never enter. -/
theorem c3_amended (name : Str) (e : Entity) :
    symbol_match_plausibility name e = amendedC3spec name e := by
  simp only [symbol_match_plausibility, amendedC3spec, uoWordsExtended_eq]
  exact ite_orChain _ _ _ _

/-!
Claim C4 — the eligibility condition the symbol index actually applies.
Supporting lemmas: strip is idempotent, a stripped non-empty string starts
with a non-whitespace character, and the symbol normalization of such a
string is non-empty (no stage ever deletes a non-whitespace character).
-/

theorem dropWhile_head {p : Char → Bool} :
    ∀ (l : Str) (c : Char) (t : Str), l.dropWhile p = c :: t → p c = false := by
  intro l
  induction l with
  | nil => intro c t h; simp [List.dropWhile] at h
  | cons d ds ih =>
    intro c t h
    by_cases hd : p d = true
    · rw [List.dropWhile_cons, if_pos hd] at h
      exact ih c t h
    · rw [List.dropWhile_cons, if_neg hd] at h
      injection h with h1 _
      rw [h1] at hd
      simpa using hd

theorem rdropWs_cons_nonws (c : Char) (l : Str) (hc : isPyWs c = false) :
    rdropWs (c :: l) = c :: rdropWs l := by
  simp [rdropWs, hc]

theorem rdropWs_idem : ∀ l : Str, rdropWs (rdropWs l) = rdropWs l := by
  intro l
  induction l with
  | nil => rfl
  | cons c cs ih =>
    simp only [rdropWs]
    by_cases h : rdropWs cs = [] ∧ isPyWs c = true
    · rw [if_pos h]
      rfl
    · rw [if_neg h]
      simp only [rdropWs]
      rw [ih, if_neg h]

theorem pyStrip_idem (l : Str) : pyStrip (pyStrip l) = pyStrip l := by
  unfold pyStrip
  cases hm : l.dropWhile isPyWs with
  | nil => simp [rdropWs]
  | cons d ds =>
    have hd : isPyWs d = false := dropWhile_head l d ds hm
    rw [rdropWs_cons_nonws d ds hd, List.dropWhile_cons, if_neg (by simp [hd]),
      rdropWs_cons_nonws d _ hd, rdropWs_idem]

theorem pyStrip_head (l : Str) (c : Char) (t : Str)
    (h : pyStrip l = c :: t) : isPyWs c = false := by
  unfold pyStrip at h
  cases hm : l.dropWhile isPyWs with
  | nil => rw [hm] at h; simp [rdropWs] at h
  | cons d ds =>
    have hd : isPyWs d = false := dropWhile_head l d ds hm
    rw [hm, rdropWs_cons_nonws d ds hd] at h
    injection h with h1 _
    rw [h1] at hd
    exact hd

theorem rmWsAfter_mem (tc x : Char) (hx : isPyWs x = false) :
    ∀ (flag : Bool) (l : Str), x ∈ l → x ∈ rmWsAfter tc flag l := by
  intro flag l
  induction l generalizing flag with
  | nil => intro h; simp at h
  | cons c cs ih =>
    intro h
    rcases List.mem_cons.mp h with h | h
    · subst h
      by_cases h1 : x = tc
      · simp only [rmWsAfter]
        rw [if_pos h1]
        exact List.mem_cons_self _ _
      · simp only [rmWsAfter]
        rw [if_neg h1, if_neg (by simp [hx] : ¬(flag && isPyWs x) = true)]
        exact List.mem_cons_self _ _
    · by_cases h1 : c = tc
      · simp only [rmWsAfter]
        rw [if_pos h1]
        exact List.mem_cons_of_mem _ (ih true h)
      · by_cases h2 : (flag && isPyWs c) = true
        · simp only [rmWsAfter]
          rw [if_neg h1, if_pos h2]
          exact ih true h
        · simp only [rmWsAfter]
          rw [if_neg h1, if_neg h2]
          exact List.mem_cons_of_mem _ (ih false h)

theorem stripAround_mem (tc x : Char) (hx : isPyWs x = false) (l : Str)
    (h : x ∈ l) : x ∈ stripAround tc l := by
  unfold stripAround
  apply rmWsAfter_mem tc x hx false
  rw [List.mem_reverse]
  apply rmWsAfter_mem tc x hx false
  rw [List.mem_reverse]
  exact h

theorem collapseWsAux_mem (x : Char) (hx : isPyWs x = false) :
    ∀ (flag : Bool) (l : Str), x ∈ l → x ∈ collapseWsAux flag l := by
  intro flag l
  induction l generalizing flag with
  | nil => intro h; simp at h
  | cons c cs ih =>
    intro h
    rcases List.mem_cons.mp h with h | h
    · subst h
      simp only [collapseWsAux]
      rw [if_neg (by simp [hx] : ¬ isPyWs x = true)]
      exact List.mem_cons_self _ _
    · by_cases hc : isPyWs c = true
      · simp only [collapseWsAux]
        rw [if_pos hc]
        by_cases hf : flag
        · rw [if_pos hf]
          exact ih true h
        · rw [if_neg hf]
          exact List.mem_cons_of_mem _ (ih true h)
      · simp only [collapseWsAux]
        rw [if_neg hc]
        exact List.mem_cons_of_mem _ (ih false h)

theorem normalize_symbol_ne_nil (s : Str) (hs : pyStrip s = s)
    (hne : s ≠ []) : normalize_symbol_for_match s ≠ [] := by
  obtain ⟨c, t, hct⟩ : ∃ c t, s = c :: t := by
    cases s with
    | nil => exact absurd rfl hne
    | cons c t => exact ⟨c, t, rfl⟩
  have hc : isPyWs c = false := pyStrip_head s c t (by rw [hs, hct])
  have hmem : c ∈ s := by rw [hct]; exact List.mem_cons_self _ _
  unfold normalize_symbol_for_match
  rw [if_neg hne, hs]
  have m1 := stripAround_mem '·' c hc s hmem
  have m2 := stripAround_mem '/' c hc _ m1
  have m3 := stripAround_mem '^' c hc _ m2
  have m4 := collapseWsAux_mem c hc false _ m3
  exact List.ne_nil_of_mem m4

theorem lowerAZ_not_upperAZ (c : Char) (h : isLowerAZ c = true) :
    isUpperAZ c = false := by
  unfold isLowerAZ at h
  simp only [Bool.and_eq_true, decide_eq_true_eq] at h
  unfold isUpperAZ
  rw [Bool.eq_false_iff]
  intro hu
  simp only [Bool.and_eq_true, decide_eq_true_eq] at hu
  have a1 : ('a' : Char).val.toNat ≤ c.val.toNat := h.1
  have a2 : c.val.toNat ≤ ('Z' : Char).val.toNat := hu.2
  have hx : ('a' : Char).val.toNat = 97 := by decide
  have hy : ('Z' : Char).val.toNat = 90 := by decide
  omega

theorem alpha_nonupper_lower (c : Char) (h1 : isAsciiAlpha c = true)
    (h2 : isUpperAZ c = false) : isLowerAZ c = true := by
  unfold isAsciiAlpha at h1
  rw [h2] at h1
  simpa using h1

/-- On a non-empty string, Python's `isalpha() and islower()` (ASCII range)
is exactly "all characters are lowercase letters". -/
theorem lowerAlpha_eq (t : Str) (hne : t ≠ []) :
    (pyIsAlpha t && pyIsLower t) = t.all isLowerAZ := by
  rcases Bool.eq_false_or_eq_true (t.all isLowerAZ) with hall | hall
  · rw [hall]
    rw [List.all_eq_true] at hall
    obtain ⟨c, t2, hct⟩ : ∃ c t2, t = c :: t2 := by
      cases t with
      | nil => exact absurd rfl hne
      | cons c t2 => exact ⟨c, t2, rfl⟩
    have hc : isLowerAZ c = true :=
      hall c (by rw [hct]; exact List.mem_cons_self _ _)
    simp only [pyIsAlpha, pyIsLower, Bool.and_eq_true]
    refine ⟨⟨by simp [hct], ?_⟩, ?_, ?_⟩
    · rw [List.all_eq_true]
      intro x hx
      unfold isAsciiAlpha
      rw [hall x hx]
      simp
    · rw [List.any_eq_true]
      refine ⟨c, by rw [hct]; exact List.mem_cons_self _ _, ?_⟩
      unfold isAsciiAlpha
      rw [hc]
      simp
    · simp only [Bool.not_eq_true']
      rw [Bool.eq_false_iff]
      intro hu
      obtain ⟨x, hx, hxu⟩ := List.any_eq_true.mp hu
      rw [lowerAZ_not_upperAZ x (hall x hx)] at hxu
      cases hxu
  · rw [hall]
    rw [Bool.eq_false_iff]
    intro hL
    simp only [pyIsAlpha, pyIsLower, Bool.and_eq_true, List.all_eq_true,
      Bool.not_eq_true'] at hL
    obtain ⟨⟨_, halpha⟩, _, hupper⟩ := hL
    have hlow : t.all isLowerAZ = true := by
      rw [List.all_eq_true]
      intro x hx
      refine alpha_nonupper_lower x (halpha x hx) ?_
      rcases Bool.eq_false_or_eq_true (isUpperAZ x) with h | h
      · exact absurd (List.any_eq_true.mpr ⟨x, hx, h⟩) (by simp [hupper])
      · exact h
    rw [hlow] at hall
    cases hall

/-- On an already-stripped non-empty string, `is_symbol_like` is exactly the
textual condition: no space character, at most 15 characters, and a special
character, or an uppercase letter within 10 characters, or a short
all-lowercase alphabetic token. -/
theorem is_symbol_like_eq (s : Str) (hs : pyStrip s = s) (hne : s ≠ []) :
    is_symbol_like s =
      (!(s.any (fun c => c = ' ')) && s.length ≤ 15 &&
       (s.any isSpecialSymChar || (s.any isUpperAZ && s.length ≤ 10) ||
        (s.length ≤ 5 && !s.isEmpty && s.all isLowerAZ))) := by
  unfold is_symbol_like
  rw [if_neg hne, hs]
  have hmt : (!s.isEmpty) = true := by
    cases s with
    | nil => exact absurd rfl hne
    | cons c cs => simp
  by_cases c1 : s.any (fun c => c = ' ') = true
  · rw [if_pos c1]
    simp [c1]
  · rw [if_neg c1]
    rw [Bool.not_eq_true] at c1
    by_cases c2 : 15 < s.length
    · rw [if_pos c2]
      have hlen : (s.length ≤ 15) = False := by
        simp only [eq_iff_iff, iff_false]
        omega
      simp [c1, hlen]
    · rw [if_neg c2]
      have hlen : s.length ≤ 15 := Nat.le_of_not_lt c2
      by_cases c3 : s.any isSpecialSymChar = true
      · rw [if_pos c3]
        simp [c1, hlen, c3]
      · rw [if_neg c3]
        rw [Bool.not_eq_true] at c3
        by_cases c4 : (s.any isUpperAZ && s.length ≤ 10) = true
        · rw [if_pos c4]
          simp [c1, hlen, c3, c4]
        · rw [if_neg c4]
          rw [Bool.not_eq_true] at c4
          have key : (s.length ≤ 5 && pyIsAlpha s && pyIsLower s) =
              (s.length ≤ 5 && !s.isEmpty && s.all isLowerAZ) := by
            rw [Bool.and_assoc, lowerAlpha_eq s hne, Bool.and_assoc, hmt]
            simp
          by_cases c5 : (decide (s.length ≤ 5) && pyIsAlpha s && pyIsLower s) = true
          · rw [if_pos c5]
            rw [key] at c5
            simp [c1, hlen, c3, c4, c5]
          · rw [if_neg c5]
            rw [Bool.not_eq_true] at c5
            rw [key] at c5
            simp [c1, hlen, c3, c4, c5]

/-- C4 (amended): a synonym's symbol-index contribution exists exactly when
the stripped synonym is non-empty, not a `10^[k]` power synonym, at most 15
characters, free of the space character, not an ambiguous single letter, and
either holds a special character (`/ ^ µ ° Ω ² ³`), or holds an uppercase
letter within at most 10 characters, or is an all-lowercase alphabetic token
of at most 5 characters — a digit alone makes nothing symbol-like. -/
theorem c4_amended (e : Entity) (tag syn : Str) :
    symPairOf e tag syn =
      (if amendedCondC4 syn then
        some (normalize_symbol_for_match (pyStrip syn),
          (e, tag ++ str "_as_symbol"))
       else none) := by
  have hidem := pyStrip_idem syn
  simp only [symPairOf, amendedCondC4]
  by_cases h0 : pyStrip syn = []
  · rw [if_pos h0]
    have hemp : (pyStrip syn).isEmpty = true := by rw [h0]; rfl
    simp [hemp]
  · rw [if_neg h0]
    have hmt : (pyStrip syn).isEmpty = false := by
      cases hps : pyStrip syn with
      | nil => exact absurd hps h0
      | cons a b => rfl
    by_cases hP : isPowerSyn (pyStrip syn) = true
    · rw [if_pos hP]
      simp [hP]
    · rw [if_neg hP]
      rw [Bool.not_eq_true] at hP
      have hsym := is_symbol_like_eq _ hidem h0
      rw [hmt] at hsym
      simp only [Bool.not_false] at hsym
      simp only [hmt, hP, Bool.not_false, Bool.true_and]
      rw [← hsym]
      by_cases hA : is_symbol_like (pyStrip syn) = true
      · rw [if_pos hA]
        by_cases hB : ((pyStrip syn).length = 1 &&
            (pyStrip syn).any
              (fun c => SINGLE_CHAR_PREFIX_SYMBOLS.any (fun a => a = c))) = true
        · rw [if_pos hB]
          simp [hA, hB]
        · rw [if_neg hB]
          have hsn : normalize_symbol_for_match (pyStrip syn) ≠ [] :=
            normalize_symbol_ne_nil _ hidem h0
          rw [if_neg hsn]
          rw [Bool.not_eq_true] at hB
          simp [hA, hB]
      · rw [if_neg hA]
        rw [Bool.not_eq_true] at hA
        simp [hA]
